import Mathlib

/-! CAN signal packer (`opendbc/can/packer.cc`).

A shallow embedding of `set_value` and of the `CANPacker` class, followed by
theorems about the bit layout, the rolling counter and the checksum stage.

Conventions of the embedding.

* A byte buffer (`std::vector<uint8_t>`) is a `List Nat`; every store
  truncates with `% 256`.
* `int64_t` values are `Int`; conversions to and from `uint64_t` are explicit
  (`toUInt64`, `toInt64`), 64-bit shifts and complements are `shl64`, `not64`.
* A `double` is its exact rational value (`ℚ`); the result of a `double`
  subtraction or division is rounded to binary64 by `to_double` (nearest, ties
  to even, with subnormals), and a result that is not finite is `none`.
* `std::map` is a function into `Option`; `operator[]=` is `map_insert`.
* A C++ exception is the `Except.error` component of the result; the state
  reached when it is thrown is returned next to it.
-/

namespace Packer

/-! ## Machine integers -/

/-- Conversion of an integer to `uint64_t`: its residue modulo `2^64`. -/
def toUInt64 (x : Int) : Nat := (x % 2 ^ 64).toNat

/-- Conversion of a 64-bit pattern to `int64_t` (two's complement). -/
def toInt64 (x : Nat) : Int :=
  if x % 2 ^ 64 < 2 ^ 63 then ((x % 2 ^ 64 : Nat) : Int) else ((x % 2 ^ 64 : Nat) : Int) - 2 ^ 64

/-- Left shift of an `unsigned long long`. The count is reduced modulo 64 as
x86-64 and AArch64 do; C++ leaves a count of 64 or more undefined. -/
def shl64 (a k : Nat) : Nat := (a <<< (k % 64)) % 2 ^ 64

/-- Bitwise complement of an `unsigned long long`. -/
def not64 (a : Nat) : Nat := 2 ^ 64 - 1 - a % 2 ^ 64

/-- The value of `1 << k` for an `int` one, converted to `unsigned int`. The
count is reduced modulo 32 as the hardware does; C++ leaves a count of 32 or
more undefined. -/
def shl32_one (k : Nat) : Nat := (1 <<< (k % 32)) % 2 ^ 32

/-- C `round`: nearest integer, halfway cases away from zero. -/
def c_round (x : ℚ) : Int := if 0 ≤ x then ⌊x + 1 / 2⌋ else -⌊-x + 1 / 2⌋

/-- The cast `(int64_t)` of an integral `double`. Out of range the cast is
undefined in C++; x86-64 yields the most negative value, which is what is
modelled. -/
def double_to_int64 (r : Int) : Int := if -(2 : Int) ^ 63 ≤ r ∧ r < 2 ^ 63 then r else -(2 : Int) ^ 63

/-- Truncation toward zero of a `double`. -/
def c_trunc (x : ℚ) : Int := if 0 ≤ x then ⌊x⌋ else -⌊-x⌋

/-! ## Binary64 rounding -/

/-- The power `2 ^ k` for an integer exponent. -/
def pow2 (k : Int) : ℚ :=
  if 0 ≤ k then ((2 ^ k.toNat : Nat) : ℚ) else 1 / ((2 ^ (-k).toNat : Nat) : ℚ)

/-- Rounding of a non-negative rational to the nearest integer, ties to even. -/
def round_half_even (y : ℚ) : Int :=
  if y - ⌊y⌋ < 1 / 2 then ⌊y⌋
  else if 1 / 2 < y - ⌊y⌋ then ⌊y⌋ + 1
  else if ⌊y⌋ % 2 = 0 then ⌊y⌋ else ⌊y⌋ + 1

/-- Halving loop behind `floor_log2`; it stops when `n < 2`. -/
def log2_loop : Nat → Nat → Nat
  | 0, _ => 0
  | fuel + 1, n => if 2 ≤ n then log2_loop fuel (n / 2) + 1 else 0

/-- The integer part of the binary logarithm of a positive natural number. -/
def floor_log2 (n : Nat) : Nat := log2_loop n n

/-- The binary exponent of a non-zero rational: the `e` with
`2 ^ e ≤ |x| < 2 ^ (e + 1)`. It is one of the two candidates given by the
logarithms of numerator and denominator. -/
def binade (x : ℚ) : Int :=
  if pow2 ((floor_log2 x.num.natAbs : Int) - (floor_log2 x.den : Int)) ≤ |x| then
    (floor_log2 x.num.natAbs : Int) - (floor_log2 x.den : Int)
  else (floor_log2 x.num.natAbs : Int) - (floor_log2 x.den : Int) - 1

/-- The IEEE 754 binary64 value of an exact result, in the default rounding mode
(nearest, ties to even): 53 significant bits, exponents from `-1022` (subnormals
below) to `1023`. A result that rounds to `2 ^ 1024` or more overflows to an
infinity, which is `none`. -/
def to_double (x : ℚ) : Option ℚ :=
  if x = 0 then some 0
  else
    let q := pow2 (max (binade x) (-1022) - 52)
    let r := (round_half_even (|x| / q) : ℚ) * q
    if pow2 1024 ≤ r then none else some (if 0 ≤ x then r else -r)

/-- The rational is a finite binary64 value. -/
def isDouble (x : ℚ) : Prop := to_double x = some x

instance (x : ℚ) : Decidable (isDouble x) := by
  unfold isDouble; infer_instance

/-- Division of `double`s, `a / b`, for a finite divisor `b`: an infinity or a
NaN (`none`) when `a` is not finite or `b` is zero. -/
def double_div (a : Option ℚ) (b : ℚ) : Option ℚ :=
  match a with
  | none => none
  | some d => if b = 0 then none else to_double (d / b)

/-! ## Data model (`common.h`) -/

/-- Modelled from the spec: `struct Signal` is declared in `common.h`, which is
not among the sources. These are the data fields that `packer.cc` reads; `lsb` is
the spec's start_bit, `size` its bit_length and `is_little_endian` the forward
byte order. `lsb` and `size` are C `int`s; a negative value makes the shifts of
`set_value` undefined, so they are taken as naturals. `factor` and `offset` are
`double`s, given by their exact values. -/
structure SignalLayout where
  name : String
  lsb : Nat
  size : Nat
  is_little_endian : Bool
  factor : ℚ
  offset : ℚ

/-- The `struct Signal`: the data fields and the `calc_checksum` function
pointer (`none` is `nullptr`). The pointer receives the address, the signal and
the buffer; the signal is handed over as its data fields. -/
structure Signal extends SignalLayout where
  calc_checksum : Option (Nat → SignalLayout → List Nat → Nat)

/-- Modelled from the spec: `struct Msg` of `common.h`, with the fields that
`packer.cc` reads. -/
structure Msg where
  name : String
  address : Nat
  size : Nat
  sigs : List Signal

/-- Modelled from the spec: `struct SignalPackValue` of `common.h`, a signal
name and a physical value (a `double`, given by its exact value). -/
structure SignalPackValue where
  name : String
  value : ℚ

/-- Assignment `m[k] = v` on a `std::map`. -/
def map_insert {κ α : Type} [DecidableEq κ] (m : κ → Option α) (k : κ) (v : α) : κ → Option α :=
  fun x => if x = k then some v else m x

/-- Modelled from the spec: the class `CANPacker` is declared in `common.h`,
which is not among the sources. Its members are the three lookup maps filled by
the constructor and the per-address counter map, whose values the spec calls
unsigned integers; they are taken as `uint32_t`. -/
structure CANPacker where
  signal_lookup : Nat × String → Option Signal
  message_lookup : Nat → Option Msg
  message_name_to_address : String → Option Nat
  counters : Nat → Option Nat

/-- The `std::runtime_error`s thrown by the packer. -/
inductive PackError where
  | invalid_address (address : Nat)
  | undefined_signal (name : String)
  | invalid_message_name (name : String)
  deriving DecidableEq

deriving instance DecidableEq for Except

/-! ## `set_value` -/

/-- The two statements `msg[i] &= ~(((1ULL << size) - 1) << shift)` and
`msg[i] |= (ival & ((1ULL << size) - 1)) << shift` on the byte `b`; each store
into the `uint8_t` truncates. -/
def write_chunk (b : Nat) (ival : Int) (shift size : Nat) : Nat :=
  let b1 := (b &&& not64 (shl64 (shl64 1 size - 1) shift)) % 256
  (b1 ||| shl64 (toUInt64 ival &&& (shl64 1 size - 1)) shift) % 256

/-- The `while` loop of `set_value`. Every iteration consumes at least one of
the remaining `bits`, so `fuel = bits` iterations are enough. -/
def set_value_loop (sig : Signal) : Nat → List Nat → Int → Nat → Int → List Nat
  | 0, msg, _, _, _ => msg
  | fuel + 1, msg, i, bits, ival =>
    if 0 ≤ i ∧ i < (msg.length : Int) ∧ 0 < bits then
      let shift := if ((sig.lsb / 8 : Nat) : Int) = i then sig.lsb % 8 else 0
      let size := min bits (8 - shift)
      set_value_loop sig fuel (msg.set i.toNat (write_chunk (msg.getD i.toNat 0) ival shift size))
        (if sig.is_little_endian then i + 1 else i - 1) (bits - size) (ival >>> size)
    else msg

/-- The function `set_value(msg, sig, ival)`; the new buffer is returned. -/
def set_value (msg : List Nat) (sig : Signal) (ival : Int) : List Nat :=
  let ival1 := if sig.size < 64 then toInt64 (toUInt64 ival &&& (shl64 1 sig.size - 1)) else ival
  set_value_loop sig sig.size msg ((sig.lsb / 8 : Nat) : Int) sig.size ival1

/-- The byte indices `i` at which the loop of `set_value` evaluates `msg[i]`,
in order, for a buffer of `len` bytes: the loop above with the same guard and the
same step, keeping the index of each iteration. -/
def set_value_indices_loop (sig : Signal) : Nat → Nat → Int → Nat → List Int
  | 0, _, _, _ => []
  | fuel + 1, len, i, bits =>
    if 0 ≤ i ∧ i < (len : Int) ∧ 0 < bits then
      let shift := if ((sig.lsb / 8 : Nat) : Int) = i then sig.lsb % 8 else 0
      let size := min bits (8 - shift)
      i :: set_value_indices_loop sig fuel len
        (if sig.is_little_endian then i + 1 else i - 1) (bits - size)
    else []

/-- The byte indices that `set_value` accesses on a buffer of `len` bytes, one
for each chunk. -/
def set_value_indices (len : Nat) (sig : Signal) : List Int :=
  set_value_indices_loop sig sig.size len ((sig.lsb / 8 : Nat) : Int) sig.size

/-! ## `CANPacker` -/

/-- A packer with empty maps. -/
def CANPacker.empty : CANPacker :=
  { signal_lookup := fun _ => none
    message_lookup := fun _ => none
    message_name_to_address := fun _ => none
    counters := fun _ => none }

/-- The constructor, given the messages `dbc->msgs` of the looked-up DBC. -/
def CANPacker.create (msgs : List Msg) : CANPacker :=
  msgs.foldl (fun p msg =>
    let p1 : CANPacker :=
      { p with
        message_lookup := map_insert p.message_lookup msg.address msg
        message_name_to_address := map_insert p.message_name_to_address msg.name msg.address }
    msg.sigs.foldl (fun q sig =>
      { q with signal_lookup := map_insert q.signal_lookup (msg.address, sig.name) sig }) p1)
    CANPacker.empty

/-- The method `address_from_name`. -/
def address_from_name (p : CANPacker) (msg_name : String) : Except PackError Nat :=
  match p.message_name_to_address msg_name with
  | none => .error (.invalid_message_name msg_name)
  | some a => .ok a

/-- The quantized integer of a physical value,
`(int64_t)round((sigval.value - sig.offset) / sig.factor)`, computed in `double`s:
the difference and the quotient are each rounded to binary64, and `round` of a
`double` is exact. The cast of an infinity or a NaN is undefined in C++; as for
the other out-of-range casts the most negative value of x86-64 is taken. -/
def quantize (sig : Signal) (value : ℚ) : Int :=
  match double_div (to_double (value - sig.offset)) sig.factor with
  | none => -(2 : Int) ^ 63
  | some q => double_to_int64 (c_round q)

/-- The integer handed to `set_value` for a quantized `ival`: a negative one is
replaced by `(1ULL << sig.size) + ival`. -/
def wrap_negative (sig : Signal) (ival : Int) : Int :=
  if ival < 0 then toInt64 ((shl64 1 sig.size + toUInt64 ival) % 2 ^ 64) else ival

/-- The conversion of `sigval.value` to the counter type `uint32_t`. Out of
range the conversion is undefined in C++; the low 32 bits of the truncated
value are taken. -/
def double_to_counter (value : ℚ) : Nat := (c_trunc value % 2 ^ 32).toNat

/-- The loop of `pack` over the given values, from the buffer `ret`, the flag
`counter_set` and the counter map. An unknown signal ends it with the error and
the counter map reached so far. -/
def pack_values (p : CANPacker) (address : Nat) :
    List SignalPackValue → List Nat → Bool → (Nat → Option Nat) →
      Except PackError (List Nat × Bool) × (Nat → Option Nat)
  | [], ret, counter_set, counters => (.ok (ret, counter_set), counters)
  | sigval :: rest, ret, counter_set, counters =>
    match p.signal_lookup (address, sigval.name) with
    | none => (.error (.undefined_signal sigval.name), counters)
    | some sig =>
      let ival := wrap_negative sig (quantize sig sigval.value)
      let ret1 := set_value ret sig ival
      let counter_set1 := counter_set || (sigval.name == "COUNTER")
      let counters1 :=
        if counter_set1 then map_insert counters address (double_to_counter sigval.value)
        else counters
      pack_values p address rest ret1 counter_set1 counters1

/-- The block `// set message counter` of `pack`. -/
def pack_counter (p : CANPacker) (address : Nat) (counter_set : Bool) (ret : List Nat)
    (counters : Nat → Option Nat) : List Nat × (Nat → Option Nat) :=
  match p.signal_lookup (address, "COUNTER") with
  | none => (ret, counters)
  | some sig =>
    if counter_set then (ret, counters)
    else
      let counters1 :=
        match counters address with
        | none => map_insert counters address 0
        | some _ => counters
      let c := (counters1 address).getD 0
      let ret1 := set_value ret sig (Int.ofNat c)
      (ret1, map_insert counters1 address (((c + 1) % 2 ^ 32) % shl32_one sig.size))

/-- The block `// set message checksum` of `pack`; the hook returns an
`unsigned int`. -/
def pack_checksum (p : CANPacker) (address : Nat) (ret : List Nat) : List Nat :=
  match p.signal_lookup (address, "CHECKSUM") with
  | none => ret
  | some sig =>
    match sig.calc_checksum with
    | none => ret
    | some h => set_value ret sig (Int.ofNat (h address sig.toSignalLayout ret % 2 ^ 32))

/-- The part of `pack` before the checksum block: lookup of the address, the
zero buffer, the given values and the message counter. -/
def pack_pre (p : CANPacker) (address : Nat) (values : List SignalPackValue) :
    Except PackError (List Nat) × CANPacker :=
  match p.message_lookup address with
  | none => (.error (.invalid_address address), p)
  | some m =>
    match pack_values p address values (List.replicate m.size 0) false p.counters with
    | (.error e, counters) => (.error e, { p with counters := counters })
    | (.ok (ret, counter_set), counters) =>
      let r := pack_counter p address counter_set ret counters
      (.ok r.1, { p with counters := r.2 })

/-- The method `pack(address, values)`: the returned buffer or the exception,
and the packer after the call. -/
def pack (p : CANPacker) (address : Nat) (values : List SignalPackValue) :
    Except PackError (List Nat) × CANPacker :=
  match pack_pre p address values with
  | (.error e, p1) => (.error e, p1)
  | (.ok ret, p1) => (.ok (pack_checksum p address ret), p1)

/-- The method `lookup_message`: `&message_lookup[address]`, which inserts a
value-initialised `Msg` when the address is absent. -/
def lookup_message (p : CANPacker) (address : Nat) : Msg × CANPacker :=
  match p.message_lookup address with
  | some m => (m, p)
  | none =>
    let m : Msg := { name := "", address := 0, size := 0, sigs := [] }
    (m, { p with message_lookup := map_insert p.message_lookup address m })

/-- Consecutive `pack` calls on one address, one list of values per call. -/
def pack_calls (p : CANPacker) (address : Nat) :
    List (List SignalPackValue) → List (Except PackError (List Nat)) × CANPacker
  | [] => ([], p)
  | values :: rest =>
    let r := pack p address values
    let rs := pack_calls r.2 address rest
    (r.1 :: rs.1, rs.2)

/-! ## Reading a field back -/

/-- The byte index and the bit inside the byte of bit `k` of a signal's field.
Forward order: byte `(lsb + k) / 8`, bit `(lsb + k) % 8`. Reverse order: the
first chunk lies in byte `lsb / 8` from bit `lsb % 8`, later chunks start at
bit 0 of successively lower bytes. -/
def bitPos (sig : Signal) (k : Nat) : Int × Nat :=
  if sig.is_little_endian then ((((sig.lsb + k) / 8 : Nat) : Int), (sig.lsb + k) % 8)
  else if k < 8 - sig.lsb % 8 then (((sig.lsb / 8 : Nat) : Int), sig.lsb % 8 + k)
  else (((sig.lsb / 8 : Nat) : Int) - 1 - (((k - (8 - sig.lsb % 8)) / 8 : Nat) : Int),
        (k - (8 - sig.lsb % 8)) % 8)

/-- Bit `j` of byte `b` of a buffer; `false` outside the buffer. -/
def bitAt (msg : List Nat) (b : Nat) (j : Nat) : Bool := (msg.getD b 0).testBit j

/-- The bit of a buffer at a position given with an integer byte index. -/
def bitAtPos (msg : List Nat) (pos : Int × Nat) : Bool :=
  if 0 ≤ pos.1 then bitAt msg pos.1.toNat pos.2 else false

/-- The unsigned integer made of the first `n` bits of a signal's field. -/
def readBits (msg : List Nat) (sig : Signal) : Nat → Nat
  | 0 => 0
  | n + 1 => readBits msg sig n + (if bitAtPos msg (bitPos sig n) then 2 ^ n else 0)

/-- The unsigned integer held by a signal's field. -/
def readField (msg : List Nat) (sig : Signal) : Nat := readBits msg sig sig.size

/-- The field of the signal lies inside a buffer of `len` bytes. -/
def inBounds (sig : Signal) (len : Nat) : Prop :=
  ∀ k, k < sig.size → 0 ≤ (bitPos sig k).1 ∧ (bitPos sig k).1 < (len : Int)

/-- The fields of two signals share no bit. -/
def disjointFields (a b : Signal) : Prop :=
  ∀ k, k < a.size → ∀ l, l < b.size → bitPos a k ≠ bitPos b l

instance (sig : Signal) (len : Nat) : Decidable (inBounds sig len) := by
  unfold inBounds; infer_instance

instance (a b : Signal) : Decidable (disjointFields a b) := by
  unfold disjointFields; infer_instance

/-! ## Example catalog -/

/-- Scenario A of the spec: the 8-bit signal `V` of a 1-byte message. -/
def sigV : Signal :=
  { name := "V", lsb := 0, size := 8, is_little_endian := true, factor := 1, offset := 0,
    calc_checksum := none }

/-- Scenario B of the spec: the 4-bit signal `A` of a 2-byte message. -/
def sigA : Signal :=
  { name := "A", lsb := 0, size := 4, is_little_endian := true, factor := 1, offset := 0,
    calc_checksum := none }

/-- Scenario B of the spec: the 12-bit signal `B` of a 2-byte message. -/
def sigB : Signal :=
  { name := "B", lsb := 4, size := 12, is_little_endian := true, factor := 1, offset := 0,
    calc_checksum := none }

/-- A checksum hook: the address plus the sum of the bytes, modulo 256. -/
def sumChecksum : Nat → SignalLayout → List Nat → Nat :=
  fun address _ d => (address + d.foldl (fun a x => a + x) 0) % 256

/-- A scaled 4-bit signal in byte 0. -/
def sigX : Signal :=
  { name := "X", lsb := 0, size := 4, is_little_endian := true, factor := 1 / 4, offset := -2,
    calc_checksum := none }

/-- A 2-bit rolling counter in byte 0. -/
def sigCounter : Signal :=
  { name := "COUNTER", lsb := 4, size := 2, is_little_endian := true, factor := 1, offset := 0,
    calc_checksum := none }

/-- An 8-bit checksum in byte 1, with a hook. -/
def sigChecksum : Signal :=
  { name := "CHECKSUM", lsb := 8, size := 8, is_little_endian := true, factor := 1, offset := 0,
    calc_checksum := some sumChecksum }

/-- A 7-bit signal in reverse byte order: bits 5 to 7 of byte 3, then bits 0 to 3
of byte 2. -/
def sigR : Signal :=
  { name := "R", lsb := 29, size := 7, is_little_endian := false, factor := 1, offset := 0,
    calc_checksum := none }

/-- A 12-bit signal in reverse byte order that starts at bit 4 of byte 0, so its
field continues below byte 0; it belongs to no message of the catalog. -/
def sigLow : Signal :=
  { name := "LOW", lsb := 4, size := 12, is_little_endian := false, factor := 1, offset := 0,
    calc_checksum := none }

/-- The 1-byte message of Scenario A, at address 1. -/
def msgA : Msg := { name := "SCENARIO_A", address := 1, size := 1, sigs := [sigV] }

/-- The 2-byte message of Scenario B, at address 2. -/
def msgB : Msg := { name := "SCENARIO_B", address := 2, size := 2, sigs := [sigA, sigB] }

/-- A 4-byte message with a counter and a hooked checksum, at address 16. -/
def msgDemo : Msg :=
  { name := "DEMO", address := 16, size := 4, sigs := [sigX, sigCounter, sigChecksum, sigR] }

/-- A 63-bit signal with offset `-1`, filling the low 63 bits of 8 bytes. -/
def sigWide : Signal :=
  { name := "WIDE", lsb := 0, size := 63, is_little_endian := true, factor := 1, offset := -1,
    calc_checksum := none }

/-- An 8-byte message with the 63-bit signal, at address 32. -/
def msgWide : Msg := { name := "WIDE_MSG", address := 32, size := 8, sigs := [sigWide] }

/-- The messages of the example catalog. -/
def exampleMsgs : List Msg := [msgA, msgB, msgDemo, msgWide]

/-- The packer built from the example catalog. -/
def examplePacker : CANPacker := CANPacker.create exampleMsgs

/-- Every byte of the buffer is a `uint8_t`. -/
def validBytes (msg : List Nat) : Prop := ∀ x, x ∈ msg → x < 256

instance (msg : List Nat) : Decidable (validBytes msg) := by
  unfold validBytes; infer_instance

/-- Bit `k` of the two's complement representation of an integer. -/
def bitOf (v : Int) (k : Nat) : Bool := Int.testBit v k

/-! ## Bit-level lemmas on machine integers -/

theorem shl64_one {s : Nat} (h : s < 64) : shl64 1 s = 2 ^ s := by
  unfold shl64
  rw [Nat.mod_eq_of_lt h, Nat.one_shiftLeft]
  exact Nat.mod_eq_of_lt (Nat.pow_lt_pow_right (by decide) h)

theorem testBit_shl64 (a k j : Nat) (hk : k < 64) :
    (shl64 a k).testBit j = (decide (j < 64) && (decide (k ≤ j) && a.testBit (j - k))) := by
  unfold shl64
  rw [Nat.mod_eq_of_lt hk, Nat.testBit_mod_two_pow, Nat.testBit_shiftLeft]

theorem testBit_not64 (a j : Nat) :
    (not64 a).testBit j = (decide (j < 64) && !a.testBit j) := by
  unfold not64
  have h : a % 2 ^ 64 < 2 ^ 64 := Nat.mod_lt _ (by positivity)
  have e : 2 ^ 64 - 1 - a % 2 ^ 64 = 2 ^ 64 - (a % 2 ^ 64 + 1) := by omega
  rw [e, Nat.testBit_two_pow_sub_succ h, Nat.testBit_mod_two_pow]
  by_cases hj : j < 64 <;> simp [hj]

theorem negSucc_emod_two_pow (m n : Nat) :
    Int.negSucc m % 2 ^ n = ((2 ^ n - (m % 2 ^ n + 1) : Nat) : Int) := by
  have hp : 0 < 2 ^ n := by positivity
  have hr : m % 2 ^ n < 2 ^ n := Nat.mod_lt _ hp
  have hm : 2 ^ n * (m / 2 ^ n) + m % 2 ^ n = m := Nat.div_add_mod m (2 ^ n)
  generalize hP : 2 ^ n = P at hp hr hm
  generalize m / P = q at hm
  generalize m % P = r at hr hm ⊢
  have hP' : ((2 : Int) ^ n) = (P : Int) := by rw [← hP]; norm_cast
  rw [hP']
  have hZ : ((P - (r + 1) : Nat) : Int) = (P : Int) - (r + 1) := by omega
  have e : Int.negSucc m = ((P - (r + 1) : Nat) : Int) + (P : Int) * (-(q : Int) - 1) := by
    rw [hZ, Int.negSucc_eq, ← hm]; push_cast; ring
  rw [e, Int.add_mul_emod_self_left, Int.emod_eq_of_lt (by omega) (by omega)]

theorem testBit_lowBits (v : Int) (n k : Nat) :
    ((v % 2 ^ n).toNat).testBit k = (decide (k < n) && bitOf v k) := by
  unfold bitOf
  cases v with
  | ofNat m =>
    have h : ((m : Int) % 2 ^ n) = ((m % 2 ^ n : Nat) : Int) := by norm_cast
    show (((m : Int) % 2 ^ n).toNat).testBit k = _
    rw [h, Int.toNat_natCast, Nat.testBit_mod_two_pow]; rfl
  | negSucc m =>
    have hp : 0 < 2 ^ n := by positivity
    rw [negSucc_emod_two_pow, Int.toNat_natCast,
      Nat.testBit_two_pow_sub_succ (Nat.mod_lt _ hp), Nat.testBit_mod_two_pow]
    by_cases hk : k < n <;> simp [hk, Int.testBit]

theorem bitOf_shiftRight (v : Int) (s t : Nat) : bitOf (v >>> s) t = bitOf v (s + t) := by
  unfold bitOf
  cases v with
  | ofNat m => 
    show Int.testBit (Int.ofNat (m >>> s)) t = Int.testBit (Int.ofNat m) (s + t)
    simp [Int.testBit, Nat.testBit_shiftRight]
  | negSucc m => 
    show Int.testBit (Int.negSucc (m >>> s)) t = Int.testBit (Int.negSucc m) (s + t)
    simp [Int.testBit, Nat.testBit_shiftRight]

theorem testBit_write_chunk (b : Nat) (v : Int) (shift size j : Nat) (h : shift + size ≤ 8) :
    (write_chunk b v shift size).testBit j =
      (decide (j < 8) && (if shift ≤ j ∧ j < shift + size then bitOf v (j - shift) else b.testBit j)) := by
  unfold write_chunk
  have hs : size < 64 := by omega
  have hk : shift < 64 := by omega
  simp only [shl64_one hs, toUInt64, show (256 : Nat) = 2 ^ 8 from rfl, Nat.testBit_mod_two_pow,
    Nat.testBit_or, Nat.testBit_and, testBit_not64, testBit_shl64 _ _ _ hk, testBit_lowBits,
    Nat.testBit_two_pow_sub_one]
  by_cases h8 : j < 8
  · by_cases h1 : shift ≤ j
    · by_cases h2 : j < shift + size
      · have h3 : j - shift < size := by omega
        have h4 : j < 64 := by omega
        have h5 : j - shift < 64 := by omega
        simp [h8, h1, h2, h3, h4, h5]
      · have h3 : ¬ j - shift < size := by omega
        have h4 : j < 64 := by omega
        simp [h8, h1, h2, h3, h4]
    · have h4 : j < 64 := by omega
      simp [h8, h1, h4]
  · simp [h8]


theorem getD_set (l : List Nat) (a b x : Nat) (hb : b < l.length) :
    (l.set a x).getD b 0 = if a = b then x else l.getD b 0 := by
  have hb' : b < (l.set a x).length := by simpa using hb
  rw [List.getD_eq_getElem _ _ hb', List.getD_eq_getElem _ _ hb, List.getElem_set]

theorem bitAt_set (l : List Nat) (a b x j : Nat) (hb : b < l.length) :
    bitAt (l.set a x) b j = if a = b then x.testBit j else bitAt l b j := by
  unfold bitAt
  rw [getD_set l a b x hb]
  split_ifs <;> rfl

theorem set_value_loop_zero_bits (sig : Signal) (fuel : Nat) (msg : List Nat) (i : Int) (v : Int) :
    set_value_loop sig fuel msg i 0 v = msg := by
  cases fuel with
  | zero => rfl
  | succ f => simp [set_value_loop]

theorem bitAt_loop_forward (sig : Signal) (hle : sig.is_little_endian = true) :
    ∀ (fuel : Nat) (msg : List Nat) (q bits : Nat) (v : Int) (i : Int) (b j : Nat),
      bits ≤ fuel →
      (bits = 0 ∨ (i = ((sig.lsb / 8 + q / 8 : Nat) : Int) ∧
        (q = sig.lsb % 8 ∨ (8 ≤ q ∧ q % 8 = 0)))) →
      b < msg.length → j < 8 →
      bitAt (set_value_loop sig fuel msg i bits v) b j =
        if sig.lsb / 8 ≤ b ∧ q ≤ 8 * (b - sig.lsb / 8) + j ∧ 8 * (b - sig.lsb / 8) + j < q + bits
        then bitOf v (8 * (b - sig.lsb / 8) + j - q) else bitAt msg b j := by
  intro fuel
  induction fuel with
  | zero =>
    intro msg q bits v i b j hf _ _ _
    have : bits = 0 := by omega
    subst this
    rw [set_value_loop_zero_bits, if_neg (by omega)]
  | succ f ih =>
    intro msg q bits v i b j hf hinv hb hj
    rcases Nat.eq_zero_or_pos bits with h0 | hpos
    · subst h0
      rw [set_value_loop_zero_bits, if_neg (by omega)]
    · have hinv' := hinv.resolve_left (by omega)
      obtain ⟨hi, hq⟩ := hinv'
      unfold set_value_loop
      by_cases hg : 0 ≤ i ∧ i < (msg.length : Int) ∧ 0 < bits
      · rw [if_pos hg]
        have hshift : (if ((sig.lsb / 8 : Nat) : Int) = i then sig.lsb % 8 else 0) = q % 8 := by
          split_ifs with h <;> omega
        simp only [hshift, hle, if_true]
        have hsz : 1 ≤ min bits (8 - q % 8) := by omega
        rw [ih (msg.set i.toNat _) (q + min bits (8 - q % 8)) (bits - min bits (8 - q % 8))
          (v >>> min bits (8 - q % 8)) (i + 1) b j (by omega) (by omega) (by simpa using hb) hj]
        rw [bitAt_set _ _ _ _ _ hb, testBit_write_chunk _ _ _ _ _ (by omega), bitOf_shiftRight]
        simp only [hj, decide_True, Bool.true_and]
        have hit : i.toNat = sig.lsb / 8 + q / 8 := by omega
        rw [hit]
        generalize hm : min bits (8 - q % 8) = m at hsz ⊢
        have hm1 : m ≤ bits := by omega
        have hm2 : m ≤ 8 - q % 8 := by omega
        have hm3 : m = bits ∨ m = 8 - q % 8 := by omega
        by_cases hbi : sig.lsb / 8 + q / 8 = b
        · subst hbi
          rw [if_pos rfl]
          unfold bitAt
          split_ifs <;> first | rfl | omega | (congr 1; omega)
        · rw [if_neg hbi]
          split_ifs <;> first | rfl | omega | (congr 1; omega)
      · rw [if_neg hg, if_neg (by omega)]

theorem bitAt_loop_reverse (sig : Signal) (hle : sig.is_little_endian = false) :
    ∀ (fuel : Nat) (msg : List Nat) (q bits : Nat) (v : Int) (i : Int) (b j : Nat),
      bits ≤ fuel →
      (bits = 0 ∨ (i = ((sig.lsb / 8 : Nat) : Int) - ((q / 8 : Nat) : Int) ∧
        (q = sig.lsb % 8 ∨ (8 ≤ q ∧ q % 8 = 0)))) →
      b < msg.length → j < 8 →
      bitAt (set_value_loop sig fuel msg i bits v) b j =
        if b ≤ sig.lsb / 8 ∧ q ≤ 8 * (sig.lsb / 8 - b) + j ∧
            8 * (sig.lsb / 8 - b) + j < q + bits ∧ i < (msg.length : Int)
        then bitOf v (8 * (sig.lsb / 8 - b) + j - q) else bitAt msg b j := by
  intro fuel
  induction fuel with
  | zero =>
    intro msg q bits v i b j hf _ _ _
    have : bits = 0 := by omega
    subst this
    rw [set_value_loop_zero_bits, if_neg (by omega)]
  | succ f ih =>
    intro msg q bits v i b j hf hinv hb hj
    rcases Nat.eq_zero_or_pos bits with h0 | hpos
    · subst h0
      rw [set_value_loop_zero_bits, if_neg (by omega)]
    · have hinv' := hinv.resolve_left (by omega)
      obtain ⟨hi, hq⟩ := hinv'
      unfold set_value_loop
      by_cases hg : 0 ≤ i ∧ i < (msg.length : Int) ∧ 0 < bits
      · rw [if_pos hg]
        have hshift : (if ((sig.lsb / 8 : Nat) : Int) = i then sig.lsb % 8 else 0) = q % 8 := by
          split_ifs with h <;> omega
        simp only [hshift, hle, Bool.false_eq_true, if_false]
        have hsz : 1 ≤ min bits (8 - q % 8) := by omega
        rw [ih (msg.set i.toNat _) (q + min bits (8 - q % 8)) (bits - min bits (8 - q % 8))
          (v >>> min bits (8 - q % 8)) (i - 1) b j (by omega) (by omega) (by simpa using hb) hj]
        rw [bitAt_set _ _ _ _ _ hb, testBit_write_chunk _ _ _ _ _ (by omega), bitOf_shiftRight]
        simp only [hj, decide_True, Bool.true_and, List.length_set]
        have hit : i.toNat = sig.lsb / 8 - q / 8 := by omega
        have hit2 : q / 8 ≤ sig.lsb / 8 := by omega
        rw [hit]
        generalize hm : min bits (8 - q % 8) = m at hsz ⊢
        have hm1 : m ≤ bits := by omega
        have hm2 : m ≤ 8 - q % 8 := by omega
        have hm3 : m = bits ∨ m = 8 - q % 8 := by omega
        by_cases hbi : sig.lsb / 8 - q / 8 = b
        · subst hbi
          rw [if_pos rfl]
          unfold bitAt
          split_ifs <;> first | rfl | omega | (congr 1; omega)
        · rw [if_neg hbi]
          split_ifs <;> first | rfl | omega | (congr 1; omega)
      · rw [if_neg hg, if_neg (by omega)]

theorem length_set_value_loop (sig : Signal) :
    ∀ (fuel : Nat) (msg : List Nat) (i : Int) (bits : Nat) (v : Int),
      (set_value_loop sig fuel msg i bits v).length = msg.length := by
  intro fuel
  induction fuel with
  | zero => intro msg i bits v; rfl
  | succ f ih =>
    intro msg i bits v
    unfold set_value_loop
    by_cases hg : 0 ≤ i ∧ i < (msg.length : Int) ∧ 0 < bits
    · rw [if_pos hg]
      dsimp only
      rw [ih, List.length_set]
    · rw [if_neg hg]

theorem length_set_value (msg : List Nat) (sig : Signal) (v : Int) :
    (set_value msg sig v).length = msg.length := by
  unfold set_value
  exact length_set_value_loop _ _ _ _ _ _

theorem bitOf_natCast (x k : Nat) : bitOf (x : Int) k = x.testBit k := rfl

theorem bitOf_masked (sig : Signal) (v : Int) (k : Nat) (hk : k < sig.size) :
    bitOf (if sig.size < 64 then toInt64 (toUInt64 v &&& (shl64 1 sig.size - 1)) else v) k =
      bitOf v k := by
  split_ifs with h
  · rw [shl64_one h, Nat.and_pow_two_sub_one_eq_mod]
    have h1 : toUInt64 v % 2 ^ sig.size < 2 ^ sig.size := Nat.mod_lt _ (by positivity)
    have h2 : 2 ^ sig.size ≤ 2 ^ 63 := Nat.pow_le_pow_right (by decide) (by omega)
    have h3 : toUInt64 v % 2 ^ sig.size % 2 ^ 64 = toUInt64 v % 2 ^ sig.size :=
      Nat.mod_eq_of_lt (by omega)
    unfold toInt64
    rw [h3, if_pos (by omega), bitOf_natCast, Nat.testBit_mod_two_pow]
    unfold toUInt64
    rw [testBit_lowBits]
    have : k < 64 := by omega
    simp [hk, this]
  · rfl

theorem bitAt_set_value_forward (msg : List Nat) (sig : Signal) (v : Int) (b j : Nat)
    (hle : sig.is_little_endian = true) (hb : b < msg.length) (hj : j < 8) :
    bitAt (set_value msg sig v) b j =
      if sig.lsb / 8 ≤ b ∧ sig.lsb % 8 ≤ 8 * (b - sig.lsb / 8) + j ∧
          8 * (b - sig.lsb / 8) + j < sig.lsb % 8 + sig.size
      then bitOf v (8 * (b - sig.lsb / 8) + j - sig.lsb % 8) else bitAt msg b j := by
  unfold set_value
  dsimp only
  rw [bitAt_loop_forward sig hle sig.size msg (sig.lsb % 8) sig.size _ _ b j (le_refl _)
    (Or.inr ⟨by congr 1; omega, Or.inl rfl⟩) hb hj]
  by_cases hc : sig.lsb / 8 ≤ b ∧ sig.lsb % 8 ≤ 8 * (b - sig.lsb / 8) + j ∧
      8 * (b - sig.lsb / 8) + j < sig.lsb % 8 + sig.size
  · rw [if_pos hc, if_pos hc]
    exact bitOf_masked sig v (8 * (b - sig.lsb / 8) + j - sig.lsb % 8) (by omega)
  · rw [if_neg hc, if_neg hc]

theorem bitAt_set_value_reverse (msg : List Nat) (sig : Signal) (v : Int) (b j : Nat)
    (hle : sig.is_little_endian = false) (hb : b < msg.length) (hj : j < 8) :
    bitAt (set_value msg sig v) b j =
      if b ≤ sig.lsb / 8 ∧ sig.lsb % 8 ≤ 8 * (sig.lsb / 8 - b) + j ∧
          8 * (sig.lsb / 8 - b) + j < sig.lsb % 8 + sig.size ∧ sig.lsb / 8 < msg.length
      then bitOf v (8 * (sig.lsb / 8 - b) + j - sig.lsb % 8) else bitAt msg b j := by
  unfold set_value
  dsimp only
  rw [bitAt_loop_reverse sig hle sig.size msg (sig.lsb % 8) sig.size _ _ b j (le_refl _)
    (Or.inr ⟨by omega, Or.inl rfl⟩) hb hj]
  by_cases hc : b ≤ sig.lsb / 8 ∧ sig.lsb % 8 ≤ 8 * (sig.lsb / 8 - b) + j ∧
      8 * (sig.lsb / 8 - b) + j < sig.lsb % 8 + sig.size ∧ sig.lsb / 8 < msg.length
  · rw [if_pos hc, if_pos (by omega)]
    exact bitOf_masked sig v (8 * (sig.lsb / 8 - b) + j - sig.lsb % 8) (by omega)
  · rw [if_neg hc, if_neg (by omega)]

theorem bitPos_forward (sig : Signal) (k : Nat) (hle : sig.is_little_endian = true) :
    bitPos sig k = ((((sig.lsb + k) / 8 : Nat) : Int), (sig.lsb + k) % 8) := by
  unfold bitPos; rw [if_pos hle]

theorem bitPos_reverse (sig : Signal) (k : Nat) (hle : sig.is_little_endian = false) :
    bitPos sig k =
      (((sig.lsb / 8 : Nat) : Int) - (((sig.lsb % 8 + k) / 8 : Nat) : Int), (sig.lsb % 8 + k) % 8) := by
  unfold bitPos
  rw [if_neg (by simp [hle])]
  split_ifs with h
  · refine Prod.ext ?_ ?_ <;> simp <;> omega
  · refine Prod.ext ?_ ?_ <;> simp <;> omega

/-- A bit of the field is written with the corresponding bit of the value. -/
theorem bitAt_set_value_field (msg : List Nat) (sig : Signal) (v : Int) (k b j : Nat)
    (hk : k < sig.size) (hpos : bitPos sig k = ((b : Int), j)) (hb : b < msg.length)
    (h0 : sig.lsb / 8 < msg.length) :
    bitAt (set_value msg sig v) b j = bitOf v k := by
  cases hle : sig.is_little_endian with
  | true =>
    rw [bitPos_forward sig k hle] at hpos
    have h1 := (Prod.ext_iff.mp hpos).1
    have h2 := (Prod.ext_iff.mp hpos).2
    simp only at h1 h2
    rw [bitAt_set_value_forward msg sig v b j hle hb (by omega), if_pos (by omega)]
    congr 1; omega
  | false =>
    rw [bitPos_reverse sig k hle] at hpos
    have h1 := (Prod.ext_iff.mp hpos).1
    have h2 := (Prod.ext_iff.mp hpos).2
    simp only at h1 h2
    rw [bitAt_set_value_reverse msg sig v b j hle hb (by omega), if_pos (by omega)]
    congr 1; omega

/-- A bit outside the field keeps its value. -/
theorem bitAt_set_value_frame (msg : List Nat) (sig : Signal) (v : Int) (b j : Nat) (hj : j < 8)
    (h : ∀ k, k < sig.size → bitPos sig k ≠ ((b : Int), j)) :
    bitAt (set_value msg sig v) b j = bitAt msg b j := by
  by_cases hb : b < msg.length
  · cases hle : sig.is_little_endian with
    | true =>
      rw [bitAt_set_value_forward msg sig v b j hle hb hj]
      split_ifs with hc
      · exfalso
        apply h (8 * (b - sig.lsb / 8) + j - sig.lsb % 8) (by omega)
        rw [bitPos_forward sig _ hle]
        refine Prod.ext ?_ ?_ <;> simp <;> omega
      · rfl
    | false =>
      rw [bitAt_set_value_reverse msg sig v b j hle hb hj]
      split_ifs with hc
      · exfalso
        apply h (8 * (sig.lsb / 8 - b) + j - sig.lsb % 8) (by omega)
        rw [bitPos_reverse sig _ hle]
        refine Prod.ext ?_ ?_ <;> simp <;> omega
      · rfl
  · unfold bitAt
    rw [List.getD_eq_default _ _ (by rw [length_set_value]; omega),
      List.getD_eq_default _ _ (by omega)]

/-! ## Fuel, byte range and reading back -/

/-- More fuel than remaining bits does not change the result of the loop. -/
theorem set_value_loop_fuel (sig : Signal) :
    ∀ (fuel : Nat) (msg : List Nat) (i : Int) (bits : Nat) (v : Int), bits ≤ fuel →
      set_value_loop sig fuel msg i bits v = set_value_loop sig bits msg i bits v := by
  intro fuel
  induction fuel using Nat.strong_induction_on with
  | _ fuel ih =>
    intro msg i bits v hf
    rcases Nat.eq_zero_or_pos bits with h0 | hpos
    · subst h0; rw [set_value_loop_zero_bits, set_value_loop_zero_bits]
    · obtain ⟨f, rfl⟩ : ∃ f, fuel = f + 1 := ⟨fuel - 1, by omega⟩
      obtain ⟨c, rfl⟩ : ∃ c, bits = c + 1 := ⟨bits - 1, by omega⟩
      unfold set_value_loop
      by_cases hg : 0 ≤ i ∧ i < (msg.length : Int) ∧ 0 < c + 1
      · rw [if_pos hg, if_pos hg]
        dsimp only
        have hsz : 1 ≤ min (c + 1) (8 - (if ((sig.lsb / 8 : Nat) : Int) = i then sig.lsb % 8 else 0)) := by
          split_ifs <;> omega
        rw [ih f (by omega) _ _ _ _ (by omega), ih c (by omega) _ _ _ _ (by omega)]
      · rw [if_neg hg, if_neg hg]

theorem write_chunk_lt (b : Nat) (v : Int) (shift size : Nat) : write_chunk b v shift size < 256 := by
  unfold write_chunk
  exact Nat.mod_lt _ (by decide)

theorem validBytes_set_value_loop (sig : Signal) :
    ∀ (fuel : Nat) (msg : List Nat) (i : Int) (bits : Nat) (v : Int), validBytes msg →
      validBytes (set_value_loop sig fuel msg i bits v) := by
  intro fuel
  induction fuel with
  | zero => intro msg i bits v h; exact h
  | succ f ih =>
    intro msg i bits v h
    unfold set_value_loop
    by_cases hg : 0 ≤ i ∧ i < (msg.length : Int) ∧ 0 < bits
    · rw [if_pos hg]
      dsimp only
      apply ih
      intro x hx
      rcases List.mem_or_eq_of_mem_set hx with h1 | h1
      · exact h x h1
      · rw [h1]; exact write_chunk_lt _ _ _ _
    · rw [if_neg hg]; exact h

theorem validBytes_set_value (msg : List Nat) (sig : Signal) (v : Int) (h : validBytes msg) :
    validBytes (set_value msg sig v) := by
  unfold set_value
  exact validBytes_set_value_loop _ _ _ _ _ _ h

theorem validBytes_replicate (n : Nat) : validBytes (List.replicate n 0) := by
  intro x hx
  rw [List.eq_of_mem_replicate hx]; decide

theorem bitAt_high (msg : List Nat) (h : validBytes msg) (b j : Nat) (hj : 8 ≤ j) :
    bitAt msg b j = false := by
  unfold bitAt
  apply Nat.testBit_lt_two_pow
  have h1 : msg.getD b 0 < 256 := by
    by_cases hb : b < msg.length
    · rw [List.getD_eq_getElem _ _ hb]; exact h _ (List.getElem_mem _)
    · rw [List.getD_eq_default _ _ (by omega)]; decide
  calc msg.getD b 0 < 2 ^ 8 := h1
    _ ≤ 2 ^ j := Nat.pow_le_pow_right (by decide) hj

/-- Two buffers of the same length with the same bits are equal. -/
theorem buffer_ext (l1 l2 : List Nat) (hlen : l1.length = l2.length)
    (h : ∀ b j, b < l1.length → bitAt l1 b j = bitAt l2 b j) : l1 = l2 := by
  apply List.ext_getElem hlen
  intro n h1 h2
  apply Nat.eq_of_testBit_eq
  intro j
  have := h n j h1
  unfold bitAt at this
  rwa [List.getD_eq_getElem _ _ h1, List.getD_eq_getElem _ _ h2] at this

theorem readBits_lt (msg : List Nat) (sig : Signal) (n : Nat) : readBits msg sig n < 2 ^ n := by
  induction n with
  | zero => simp [readBits]
  | succ m ih =>
    unfold readBits
    have : 2 ^ (m + 1) = 2 ^ m + 2 ^ m := by ring
    split_ifs <;> omega

theorem testBit_readBits (msg : List Nat) (sig : Signal) (n j : Nat) :
    (readBits msg sig n).testBit j = (decide (j < n) && bitAtPos msg (bitPos sig j)) := by
  induction n with
  | zero => simp [readBits]
  | succ m ih =>
    unfold readBits
    have hlt := readBits_lt msg sig m
    rcases Nat.lt_trichotomy j m with hjm | hjm | hjm
    · have e : (decide (j < m + 1)) = true := by simp; omega
      rw [e, Bool.true_and]
      split_ifs with hc
      · rw [Nat.add_comm, Nat.testBit_two_pow_add_gt hjm, ih]; simp [hjm]
      · rw [Nat.add_zero, ih]; simp [hjm]
    · subst hjm
      have e : (decide (j < j + 1)) = true := by simp
      rw [e, Bool.true_and]
      split_ifs with hc
      · rw [Nat.add_comm, Nat.testBit_two_pow_add_eq, Nat.testBit_lt_two_pow hlt, hc]; rfl
      · rw [Nat.add_zero, Nat.testBit_lt_two_pow hlt]; simpa using hc
    · have e : (decide (j < m + 1)) = false := by simp; omega
      rw [e, Bool.false_and]
      apply Nat.testBit_lt_two_pow
      have h1 : 2 ^ (m + 1) ≤ 2 ^ j := Nat.pow_le_pow_right (by decide) hjm
      have h2 : 2 ^ (m + 1) = 2 ^ m + 2 ^ m := by ring
      split_ifs <;> omega

theorem start_byte_of_inBounds (sig : Signal) (len : Nat) (h : inBounds sig len) (hn : 0 < sig.size) :
    sig.lsb / 8 < len := by
  have h0 := h 0 hn
  cases hle : sig.is_little_endian with
  | true => rw [bitPos_forward sig 0 hle] at h0; simp at h0; omega
  | false => rw [bitPos_reverse sig 0 hle] at h0; simp at h0; omega

/-- Reading an in-bounds field after `set_value` gives the value modulo `2 ^ size`. -/
theorem readField_set_value (msg : List Nat) (sig : Signal) (v : Int)
    (h : inBounds sig msg.length) :
    readField (set_value msg sig v) sig = (v % 2 ^ sig.size).toNat := by
  apply Nat.eq_of_testBit_eq
  intro j
  unfold readField
  rw [testBit_readBits, testBit_lowBits]
  by_cases hj : j < sig.size
  · simp only [hj, decide_True, Bool.true_and]
    have hb := h j hj
    have h0 := start_byte_of_inBounds sig _ h (by omega)
    unfold bitAtPos
    rw [if_pos hb.1]
    apply bitAt_set_value_field msg sig v j _ _ hj _ (by omega) h0
    refine Prod.ext ?_ rfl
    simp only
    omega
  · simp [hj]

/-! ## The stages of `pack` -/

theorem pack_values_cases (p : CANPacker) (address : Nat) :
    ∀ (values : List SignalPackValue) (ret : List Nat) (cs : Bool) (ctr : Nat → Option Nat),
      ((∀ sv, sv ∈ values → p.signal_lookup (address, sv.name) ≠ none) ∧
        ∃ r, (pack_values p address values ret cs ctr).1 = .ok r) ∨
      ((∃ sv, sv ∈ values ∧ p.signal_lookup (address, sv.name) = none) ∧
        ∃ name, (pack_values p address values ret cs ctr).1 = .error (.undefined_signal name)) := by
  intro values
  induction values with
  | nil => intro ret cs ctr; left; exact ⟨by simp, ⟨_, rfl⟩⟩
  | cons sv rest ih =>
    intro ret cs ctr
    unfold pack_values
    cases hs : p.signal_lookup (address, sv.name) with
    | none => right; exact ⟨⟨sv, by simp, hs⟩, ⟨_, rfl⟩⟩
    | some sig =>
      dsimp only
      rcases ih (set_value ret sig (wrap_negative sig (quantize sig sv.value)))
        (cs || (sv.name == "COUNTER"))
        (if (cs || (sv.name == "COUNTER")) = true then
          map_insert ctr address (double_to_counter sv.value) else ctr) with h | h
      · left
        refine ⟨?_, h.2⟩
        intro x hx
        rcases List.mem_cons.mp hx with rfl | hx
        · rw [hs]; simp
        · exact h.1 x hx
      · right
        obtain ⟨⟨x, hx, hx2⟩, h2⟩ := h
        exact ⟨⟨x, List.mem_cons_of_mem _ hx, hx2⟩, h2⟩

theorem pack_pre_of_ok (p : CANPacker) (address : Nat) (values : List SignalPackValue) (m : Msg)
    (ret : List Nat) (cs : Bool) (ctr : Nat → Option Nat)
    (hm : p.message_lookup address = some m)
    (h : pack_values p address values (List.replicate m.size 0) false p.counters =
      (.ok (ret, cs), ctr)) :
    pack_pre p address values =
      (.ok (pack_counter p address cs ret ctr).1,
        { p with counters := (pack_counter p address cs ret ctr).2 }) := by
  unfold pack_pre
  rw [hm]
  dsimp only
  rw [h]

theorem pack_pre_of_error (p : CANPacker) (address : Nat) (values : List SignalPackValue) (m : Msg)
    (e : PackError) (ctr : Nat → Option Nat)
    (hm : p.message_lookup address = some m)
    (h : pack_values p address values (List.replicate m.size 0) false p.counters =
      (.error e, ctr)) :
    pack_pre p address values = (.error e, { p with counters := ctr }) := by
  unfold pack_pre
  rw [hm]
  dsimp only
  rw [h]

theorem pack_of_pre_ok (p : CANPacker) (address : Nat) (values : List SignalPackValue)
    (ret : List Nat) (p1 : CANPacker) (h : pack_pre p address values = (.ok ret, p1)) :
    pack p address values = (.ok (pack_checksum p address ret), p1) := by
  unfold pack; rw [h]

theorem pack_of_pre_error (p : CANPacker) (address : Nat) (values : List SignalPackValue)
    (e : PackError) (p1 : CANPacker) (h : pack_pre p address values = (.error e, p1)) :
    pack p address values = (.error e, p1) := by
  unfold pack; rw [h]

theorem pack_of_unknown_address (p : CANPacker) (address : Nat) (values : List SignalPackValue)
    (hm : p.message_lookup address = none) :
    pack p address values = (.error (.invalid_address address), p) := by
  unfold pack pack_pre; rw [hm]

/-- C7. `pack` fails with the unknown-address error exactly when the address is
not in `message_lookup`; on a known address it fails with the unknown-signal
error exactly when some entry of `values` names a signal that `signal_lookup`
does not hold for that address, and otherwise it returns a buffer. -/
theorem pack_fails_exactly_on_unknown (p : CANPacker) (address : Nat)
    (values : List SignalPackValue) :
    ((pack p address values).1 = .error (.invalid_address address) ↔
        p.message_lookup address = none) ∧
    (∀ m, p.message_lookup address = some m →
      (((∃ name, (pack p address values).1 = .error (.undefined_signal name)) ↔
          ∃ sv, sv ∈ values ∧ p.signal_lookup (address, sv.name) = none) ∧
       ((∀ sv, sv ∈ values → p.signal_lookup (address, sv.name) ≠ none) →
          ∃ buf, (pack p address values).1 = .ok buf))) := by
  have key : ∀ m, p.message_lookup address = some m →
      ((∀ sv, sv ∈ values → p.signal_lookup (address, sv.name) ≠ none) ∧
        ∃ buf, (pack p address values).1 = .ok buf) ∨
      ((∃ sv, sv ∈ values ∧ p.signal_lookup (address, sv.name) = none) ∧
        ∃ name, (pack p address values).1 = .error (.undefined_signal name)) := by
    intro m hm
    rcases hv : pack_values p address values (List.replicate m.size 0) false p.counters with
      ⟨r, ctr⟩
    have hc := pack_values_cases p address values (List.replicate m.size 0) false p.counters
    rw [hv] at hc
    rcases hc with ⟨h1, r1, h2⟩ | ⟨h1, name, h2⟩
    · left
      refine ⟨h1, ?_⟩
      simp only at h2
      subst h2
      rw [pack_of_pre_ok _ _ _ _ _ (pack_pre_of_ok p address values m r1.1 r1.2 ctr hm hv)]
      exact ⟨_, rfl⟩
    · right
      refine ⟨h1, name, ?_⟩
      simp only at h2
      subst h2
      rw [pack_of_pre_error _ _ _ _ _ (pack_pre_of_error p address values m _ ctr hm hv)]
  refine ⟨⟨?_, ?_⟩, ?_⟩
  · intro h
    cases hm : p.message_lookup address with
    | none => rfl
    | some m =>
      exfalso
      rcases key m hm with ⟨_, buf, h2⟩ | ⟨_, name, h2⟩
      · rw [h2] at h; cases h
      · rw [h2] at h; cases h
  · intro hm
    rw [pack_of_unknown_address p address values hm]
  · intro m hm
    refine ⟨⟨?_, ?_⟩, ?_⟩
    · rintro ⟨name, h⟩
      rcases key m hm with ⟨_, buf, h2⟩ | ⟨h1, _⟩
      · rw [h2] at h; cases h
      · exact h1
    · intro h
      rcases key m hm with ⟨h1, _⟩ | ⟨_, h2⟩
      · obtain ⟨sv, hsv, hn⟩ := h
        exact absurd hn (h1 sv hsv)
      · exact h2
    · intro h
      rcases key m hm with ⟨_, h2⟩ | ⟨⟨sv, hsv, hn⟩, _⟩
      · exact h2
      · exact absurd hn (h sv hsv)

theorem pack_pre_ok_inv (p : CANPacker) (address : Nat) (values : List SignalPackValue)
    (pre : List Nat) (h : (pack_pre p address values).1 = .ok pre) :
    ∃ m ret cs ctr, p.message_lookup address = some m ∧
      pack_values p address values (List.replicate m.size 0) false p.counters =
        (.ok (ret, cs), ctr) ∧
      pack_pre p address values =
        (.ok (pack_counter p address cs ret ctr).1,
          { p with counters := (pack_counter p address cs ret ctr).2 }) ∧
      pre = (pack_counter p address cs ret ctr).1 := by
  cases hm : p.message_lookup address with
  | none =>
    unfold pack_pre at h; rw [hm] at h; cases h
  | some m =>
    rcases hv : pack_values p address values (List.replicate m.size 0) false p.counters with
      ⟨r, ctr⟩
    cases r with
    | error e =>
      rw [pack_pre_of_error p address values m e ctr hm hv] at h; cases h
    | ok r1 =>
      obtain ⟨ret, cs⟩ := r1
      have h2 := pack_pre_of_ok p address values m ret cs ctr hm hv
      rw [h2] at h
      simp only [Except.ok.injEq] at h
      exact ⟨m, ret, cs, ctr, rfl, hv, h2, h.symm⟩

theorem pack_ok_inv (p : CANPacker) (address : Nat) (values : List SignalPackValue)
    (buf : List Nat) (h : (pack p address values).1 = .ok buf) :
    ∃ pre, (pack_pre p address values).1 = .ok pre ∧ buf = pack_checksum p address pre ∧
      (pack p address values).2 = (pack_pre p address values).2 := by
  rcases hp : pack_pre p address values with ⟨r, p1⟩
  cases r with
  | error e => rw [pack_of_pre_error _ _ _ _ _ hp] at h; cases h
  | ok pre =>
    rw [pack_of_pre_ok _ _ _ _ _ hp] at h ⊢
    simp only [Except.ok.injEq] at h
    exact ⟨pre, rfl, h.symm, rfl⟩

theorem pack_values_length (p : CANPacker) (address : Nat) :
    ∀ (values : List SignalPackValue) (ret : List Nat) (cs : Bool) (ctr : Nat → Option Nat)
      (r : List Nat × Bool) (ctr1 : Nat → Option Nat),
      pack_values p address values ret cs ctr = (.ok r, ctr1) → r.1.length = ret.length := by
  intro values
  induction values with
  | nil =>
    intro ret cs ctr r ctr1 h
    unfold pack_values at h
    simp only [Prod.mk.injEq, Except.ok.injEq] at h
    rw [← h.1]
  | cons sv rest ih =>
    intro ret cs ctr r ctr1 h
    unfold pack_values at h
    cases hs : p.signal_lookup (address, sv.name) with
    | none => rw [hs] at h; simp at h
    | some sig =>
      rw [hs] at h
      dsimp only at h
      rw [ih _ _ _ _ _ h, length_set_value]

theorem pack_values_valid (p : CANPacker) (address : Nat) :
    ∀ (values : List SignalPackValue) (ret : List Nat) (cs : Bool) (ctr : Nat → Option Nat)
      (r : List Nat × Bool) (ctr1 : Nat → Option Nat),
      pack_values p address values ret cs ctr = (.ok r, ctr1) → validBytes ret →
        validBytes r.1 := by
  intro values
  induction values with
  | nil =>
    intro ret cs ctr r ctr1 h hv
    unfold pack_values at h
    simp only [Prod.mk.injEq, Except.ok.injEq] at h
    rw [← h.1]; exact hv
  | cons sv rest ih =>
    intro ret cs ctr r ctr1 h hv
    unfold pack_values at h
    cases hs : p.signal_lookup (address, sv.name) with
    | none => rw [hs] at h; simp at h
    | some sig =>
      rw [hs] at h
      dsimp only at h
      exact ih _ _ _ _ _ h (validBytes_set_value _ _ _ hv)

theorem pack_counter_length (p : CANPacker) (address : Nat) (cs : Bool) (ret : List Nat)
    (ctr : Nat → Option Nat) : (pack_counter p address cs ret ctr).1.length = ret.length := by
  unfold pack_counter
  cases p.signal_lookup (address, "COUNTER") with
  | none => rfl
  | some sig =>
    dsimp only
    split_ifs
    · rfl
    · exact length_set_value _ _ _

theorem pack_counter_valid (p : CANPacker) (address : Nat) (cs : Bool) (ret : List Nat)
    (ctr : Nat → Option Nat) (h : validBytes ret) :
    validBytes (pack_counter p address cs ret ctr).1 := by
  unfold pack_counter
  cases p.signal_lookup (address, "COUNTER") with
  | none => exact h
  | some sig =>
    dsimp only
    split_ifs
    · exact h
    · exact validBytes_set_value _ _ _ h

theorem pack_checksum_length (p : CANPacker) (address : Nat) (ret : List Nat) :
    (pack_checksum p address ret).length = ret.length := by
  unfold pack_checksum
  cases p.signal_lookup (address, "CHECKSUM") with
  | none => rfl
  | some sig =>
    dsimp only
    cases sig.calc_checksum with
    | none => rfl
    | some h => exact length_set_value _ _ _

theorem pack_checksum_valid (p : CANPacker) (address : Nat) (ret : List Nat)
    (h : validBytes ret) : validBytes (pack_checksum p address ret) := by
  unfold pack_checksum
  cases p.signal_lookup (address, "CHECKSUM") with
  | none => exact h
  | some sig =>
    dsimp only
    cases sig.calc_checksum with
    | none => exact h
    | some hk => exact validBytes_set_value _ _ _ h

theorem pack_pre_length (p : CANPacker) (address : Nat) (values : List SignalPackValue)
    (m : Msg) (pre : List Nat) (hm : p.message_lookup address = some m)
    (h : (pack_pre p address values).1 = .ok pre) : pre.length = m.size ∧ validBytes pre := by
  obtain ⟨m1, ret, cs, ctr, hm1, hv, _, rfl⟩ := pack_pre_ok_inv p address values pre h
  rw [hm] at hm1
  cases hm1
  constructor
  · rw [pack_counter_length, pack_values_length p address _ _ _ _ _ _ hv]
    exact List.length_replicate _ _
  · exact pack_counter_valid _ _ _ _ _
      (pack_values_valid p address _ _ _ _ _ _ hv (validBytes_replicate _))

theorem pack_checksum_of_none (p : CANPacker) (address : Nat) (ret : List Nat)
    (h : ∀ c, p.signal_lookup (address, "CHECKSUM") = some c → c.calc_checksum = none) :
    pack_checksum p address ret = ret := by
  unfold pack_checksum
  cases hs : p.signal_lookup (address, "CHECKSUM") with
  | none => rfl
  | some sig =>
    dsimp only
    rw [h sig hs]

theorem pack_counter_of_none (p : CANPacker) (address : Nat) (cs : Bool) (ret : List Nat)
    (ctr : Nat → Option Nat) (h : p.signal_lookup (address, "COUNTER") = none) :
    pack_counter p address cs ret ctr = (ret, ctr) := by
  unfold pack_counter
  rw [h]

/-- C10. A successful `pack` returns exactly `message.size` bytes, whatever the
signals' fields are, and on a message with neither a COUNTER signal nor a
hooked CHECKSUM signal `pack(address, [])` returns `message.size` zero bytes. -/
theorem pack_output_size (p : CANPacker) (address : Nat) (m : Msg)
    (hm : p.message_lookup address = some m) :
    (∀ values buf, (pack p address values).1 = .ok buf →
      buf.length = m.size ∧ validBytes buf) ∧
    (p.signal_lookup (address, "COUNTER") = none →
      (∀ c, p.signal_lookup (address, "CHECKSUM") = some c → c.calc_checksum = none) →
      (pack p address []).1 = .ok (List.replicate m.size 0)) := by
  constructor
  · intro values buf h
    obtain ⟨pre, hpre, rfl, _⟩ := pack_ok_inv p address values buf h
    have := pack_pre_length p address values m pre hm hpre
    exact ⟨by rw [pack_checksum_length]; exact this.1, pack_checksum_valid _ _ _ this.2⟩
  · intro hc hk
    have h1 := pack_pre_of_ok p address [] m (List.replicate m.size 0) false p.counters hm rfl
    rw [pack_counter_of_none p address _ _ _ hc] at h1
    rw [pack_of_pre_ok _ _ _ _ _ h1, pack_checksum_of_none p address _ hk]

/-! ## Frames and the checksum stage -/

theorem bitPos_snd_lt (sig : Signal) (k : Nat) : (bitPos sig k).2 < 8 := by
  cases hle : sig.is_little_endian with
  | true => rw [bitPos_forward sig k hle]; exact Nat.mod_lt _ (by decide)
  | false => rw [bitPos_reverse sig k hle]; exact Nat.mod_lt _ (by decide)

theorem bitAtPos_set_value_frame (msg : List Nat) (c : Signal) (x : Int) (pos : Int × Nat)
    (hj : pos.2 < 8) (h : ∀ l, l < c.size → bitPos c l ≠ pos) :
    bitAtPos (set_value msg c x) pos = bitAtPos msg pos := by
  unfold bitAtPos
  split_ifs with h0
  · apply bitAt_set_value_frame msg c x _ _ hj
    intro l hl heq
    apply h l hl
    rw [heq]
    refine Prod.ext ?_ rfl
    simp only
    omega
  · rfl

theorem readBits_congr (m1 m2 : List Nat) (sig : Signal) (n : Nat)
    (h : ∀ k, k < n → bitAtPos m1 (bitPos sig k) = bitAtPos m2 (bitPos sig k)) :
    readBits m1 sig n = readBits m2 sig n := by
  induction n with
  | zero => rfl
  | succ m ih =>
    unfold readBits
    rw [ih (fun k hk => h k (by omega)), h m (by omega)]

/-- Writing a signal leaves the field of a disjoint signal as it was. -/
theorem readField_set_value_disjoint (msg : List Nat) (c sig : Signal) (x : Int)
    (h : disjointFields c sig) :
    readField (set_value msg c x) sig = readField msg sig := by
  unfold readField
  apply readBits_congr
  intro k hk
  apply bitAtPos_set_value_frame _ _ _ _ (bitPos_snd_lt sig k)
  intro l hl
  exact h l hl k hk

theorem toNat_ofNat_emod (x n : Nat) : (Int.ofNat x % 2 ^ n).toNat = x % 2 ^ n := by
  have h : ((x : Int) % 2 ^ n) = ((x % 2 ^ n : Nat) : Int) := by norm_cast
  show ((x : Int) % 2 ^ n).toNat = _
  rw [h, Int.toNat_natCast]

theorem pack_checksum_of_hook (p : CANPacker) (address : Nat) (ret : List Nat) (s : Signal)
    (h : Nat → SignalLayout → List Nat → Nat)
    (hs : p.signal_lookup (address, "CHECKSUM") = some s) (hh : s.calc_checksum = some h) :
    pack_checksum p address ret =
      set_value ret s (Int.ofNat (h address s.toSignalLayout ret % 2 ^ 32)) := by
  unfold pack_checksum
  rw [hs]
  dsimp only
  rw [hh]

/-- C6. On a successful `pack` the checksum is computed last, over the buffer
`pre` that holds the caller's values and the counter: with a hook `h` on the
CHECKSUM signal the returned buffer is `set_value(pre, sig, h(address, sig, pre))`,
so it agrees with `pre` on every bit outside the CHECKSUM field and an in-bounds
field holds the low `size` bits of the hook's `unsigned int` result; without a
hook the returned buffer is `pre`. -/
theorem checksum_computed_last (p : CANPacker) (address : Nat) (values : List SignalPackValue)
    (buf : List Nat) (s : Signal) (hok : (pack p address values).1 = .ok buf)
    (hs : p.signal_lookup (address, "CHECKSUM") = some s) :
    ∃ pre, (pack_pre p address values).1 = .ok pre ∧
      (∀ h, s.calc_checksum = some h →
        buf = set_value pre s (Int.ofNat (h address s.toSignalLayout pre % 2 ^ 32)) ∧
        (∀ (b j : Nat), (∀ k, k < s.size → bitPos s k ≠ ((b : Int), j)) →
          bitAt buf b j = bitAt pre b j) ∧
        (inBounds s pre.length →
          readField buf s = (h address s.toSignalLayout pre % 2 ^ 32) % 2 ^ s.size)) ∧
      (s.calc_checksum = none → buf = pre) := by
  obtain ⟨pre, hpre, hbuf, _⟩ := pack_ok_inv p address values buf hok
  refine ⟨pre, hpre, ?_, ?_⟩
  · intro h hh
    have e := pack_checksum_of_hook p address pre s h hs hh
    rw [e] at hbuf
    refine ⟨hbuf, ?_, ?_⟩
    · intro b j hf
      rw [hbuf]
      by_cases hj : j < 8
      · exact bitAt_set_value_frame pre s _ b j hj hf
      · obtain ⟨m, _, _, _, hm, _, _, _⟩ := pack_pre_ok_inv p address values pre hpre
        have hv := (pack_pre_length p address values m pre hm hpre).2
        rw [bitAt_high _ (validBytes_set_value _ _ _ hv) b j (by omega),
          bitAt_high _ hv b j (by omega)]
    · intro hb
      rw [hbuf, readField_set_value pre s _ hb, toNat_ofNat_emod]
  · intro hn
    rw [hbuf]
    exact pack_checksum_of_none p address pre (fun c hc => by rw [hs] at hc; cases hc; exact hn)

theorem bitAtPos_replicate_zero (n : Nat) (pos : Int × Nat) :
    bitAtPos (List.replicate n 0) pos = false := by
  unfold bitAtPos bitAt
  split_ifs
  · have : (List.replicate n 0).getD pos.1.toNat 0 = 0 := by
      by_cases hb : pos.1.toNat < (List.replicate n 0).length
      · rw [List.getD_eq_getElem _ _ hb]; simp
      · rw [List.getD_eq_default _ _ (by omega)]
    rw [this]; simp
  · rfl

theorem pack_values_frame (p : CANPacker) (address : Nat) (s : Signal) :
    ∀ (values : List SignalPackValue) (ret : List Nat) (cs : Bool) (ctr : Nat → Option Nat)
      (r : List Nat × Bool) (ctr1 : Nat → Option Nat),
      pack_values p address values ret cs ctr = (.ok r, ctr1) →
      (∀ sv, sv ∈ values → ∀ sg, p.signal_lookup (address, sv.name) = some sg →
        disjointFields sg s) →
      ∀ k, k < s.size → bitAtPos r.1 (bitPos s k) = bitAtPos ret (bitPos s k) := by
  intro values
  induction values with
  | nil =>
    intro ret cs ctr r ctr1 h _ k _
    unfold pack_values at h
    simp only [Prod.mk.injEq, Except.ok.injEq] at h
    rw [← h.1]
  | cons sv rest ih =>
    intro ret cs ctr r ctr1 h hd k hk
    unfold pack_values at h
    cases hs : p.signal_lookup (address, sv.name) with
    | none => rw [hs] at h; simp at h
    | some sig =>
      rw [hs] at h
      dsimp only at h
      rw [ih _ _ _ _ _ h (fun x hx => hd x (List.mem_cons_of_mem _ hx)) k hk]
      apply bitAtPos_set_value_frame _ _ _ _ (bitPos_snd_lt s k)
      intro l hl
      exact hd sv (List.mem_cons_self _ _) sig hs l hl k hk

theorem pack_counter_frame (p : CANPacker) (address : Nat) (cs : Bool) (ret : List Nat)
    (ctr : Nat → Option Nat) (s : Signal)
    (h : cs = true ∨ ∀ c, p.signal_lookup (address, "COUNTER") = some c → disjointFields c s)
    (k : Nat) (hk : k < s.size) :
    bitAtPos (pack_counter p address cs ret ctr).1 (bitPos s k) = bitAtPos ret (bitPos s k) := by
  unfold pack_counter
  cases hc : p.signal_lookup (address, "COUNTER") with
  | none => rfl
  | some c =>
    dsimp only
    split_ifs with h1
    · rfl
    · have hd := h.resolve_left h1 c hc
      apply bitAtPos_set_value_frame _ _ _ _ (bitPos_snd_lt s k)
      intro l hl
      exact hd l hl k hk

theorem pack_checksum_frame (p : CANPacker) (address : Nat) (ret : List Nat) (s : Signal)
    (h : ∀ c hk, p.signal_lookup (address, "CHECKSUM") = some c → c.calc_checksum = some hk →
      disjointFields c s)
    (k : Nat) (hk : k < s.size) :
    bitAtPos (pack_checksum p address ret) (bitPos s k) = bitAtPos ret (bitPos s k) := by
  unfold pack_checksum
  cases hc : p.signal_lookup (address, "CHECKSUM") with
  | none => rfl
  | some c =>
    dsimp only
    cases hh : c.calc_checksum with
    | none => rfl
    | some f =>
      dsimp only
      have hd := h c f hc hh
      apply bitAtPos_set_value_frame _ _ _ _ (bitPos_snd_lt s k)
      intro l hl
      exact hd l hl k hk

/-- C5 (amended). On a message whose CHECKSUM signal carries a hook, the buffer
handed to the hook has every bit of the CHECKSUM field equal to zero when no
entry of `values` names a signal whose field overlaps the CHECKSUM field and the
COUNTER field of the message, if it has one, does not overlap it either. -/
theorem checksum_field_zero_at_hook (p : CANPacker) (address : Nat)
    (values : List SignalPackValue) (pre : List Nat) (s : Signal)
    (h : Nat → SignalLayout → List Nat → Nat)
    (hpre : (pack_pre p address values).1 = .ok pre)
    (hs : p.signal_lookup (address, "CHECKSUM") = some s) (hh : s.calc_checksum = some h)
    (hvals : ∀ sv, sv ∈ values → ∀ sg, p.signal_lookup (address, sv.name) = some sg →
      disjointFields sg s)
    (hcnt : ∀ c, p.signal_lookup (address, "COUNTER") = some c → disjointFields c s) :
    (pack p address values).1 =
        .ok (set_value pre s (Int.ofNat (h address s.toSignalLayout pre % 2 ^ 32))) ∧
      ∀ k, k < s.size → bitAtPos pre (bitPos s k) = false := by
  obtain ⟨m, ret, cs, ctr, hm, hv, hp, rfl⟩ := pack_pre_ok_inv p address values pre hpre
  constructor
  · rw [pack_of_pre_ok _ _ _ _ _ hp, pack_checksum_of_hook p address _ s h hs hh]
  · intro k hk
    rw [pack_counter_frame p address cs ret ctr s (Or.inr hcnt) k hk,
      pack_values_frame p address s values _ _ _ _ _ hv hvals k hk]
    exact bitAtPos_replicate_zero _ _

/-! ## Quantization and the round trip -/

theorem c_round_intCast (z : Int) : c_round (z : ℚ) = z := by
  unfold c_round
  split_ifs with h
  · rw [Int.floor_eq_iff]
    constructor <;> linarith
  · rw [neg_eq_iff_eq_neg, Int.floor_eq_iff]
    constructor
    · push_cast; linarith
    · push_cast; linarith

theorem log2_loop_le : ∀ (f n k : Nat), n < 2 ^ (k + 1) → log2_loop f n ≤ k := by
  intro f
  induction f with
  | zero => intro n k _; simp [log2_loop]
  | succ f ih =>
    intro n k h
    unfold log2_loop
    split_ifs with h2
    · cases k with
      | zero => simp at h; omega
      | succ k1 =>
        have : n / 2 < 2 ^ (k1 + 1) := by
          rw [Nat.div_lt_iff_lt_mul (by decide)]
          calc n < 2 ^ (k1 + 1 + 1) := h
            _ = 2 ^ (k1 + 1) * 2 := by ring
        have := ih (n / 2) k1 this
        omega
    · omega

theorem pow2_neg (j : Nat) : pow2 (-(j : Int)) = 1 / (2 : ℚ) ^ j := by
  unfold pow2
  by_cases hj : j = 0
  · subst hj; simp
  · have : ¬ (0 : Int) ≤ -(j : Int) := by omega
    rw [if_neg this]
    simp

theorem round_half_even_natCast (n : Nat) : round_half_even (n : ℚ) = n := by
  unfold round_half_even
  rw [Int.floor_natCast]
  simp

theorem binade_natCast_le (z : Nat) (h : z < 2 ^ 53) : binade (z : ℚ) ≤ 52 := by
  have h1 : floor_log2 z ≤ 52 := log2_loop_le z z 52 h
  have h2 : floor_log2 1 = 0 := by decide
  unfold binade
  rw [Rat.num_natCast, Rat.den_natCast, Int.natAbs_ofNat, h2]
  split_ifs <;> omega

/-- A natural number below `2 ^ 53` is a binary64 value. -/
theorem to_double_natCast (z : Nat) (h : z < 2 ^ 53) : to_double (z : ℚ) = some (z : ℚ) := by
  by_cases hz : z = 0
  · subst hz; simp [to_double]
  · unfold to_double
    have hz' : ¬ (z : ℚ) = 0 := by exact_mod_cast hz
    rw [if_neg hz']
    dsimp only
    have hb := binade_natCast_le z h
    obtain ⟨j, hj⟩ : ∃ j : Nat, max (binade (z : ℚ)) (-1022) - 52 = -(j : Int) :=
      ⟨(52 - max (binade (z : ℚ)) (-1022)).toNat, by omega⟩
    rw [hj, pow2_neg]
    have habs : |(z : ℚ)| = (z : ℚ) := abs_of_nonneg (by positivity)
    have hd : |(z : ℚ)| / (1 / (2 : ℚ) ^ j) = ((z * 2 ^ j : Nat) : ℚ) := by
      rw [habs]; push_cast; field_simp
    rw [hd, round_half_even_natCast]
    have hr : (((z * 2 ^ j : Nat) : Int) : ℚ) * (1 / (2 : ℚ) ^ j) = (z : ℚ) := by
      push_cast; field_simp
    rw [hr]
    have hov : ¬ pow2 1024 ≤ (z : ℚ) := by
      have e : pow2 1024 = ((2 ^ 1024 : Nat) : ℚ) := by
        have ht : (1024 : Int).toNat = 1024 := by decide
        unfold pow2
        rw [if_pos (by omega), ht]
      rw [e, not_le]
      have h53 : (53 : Nat) < 1024 := by omega
      have h2 : (2 : Nat) ^ 53 < 2 ^ 1024 := Nat.pow_lt_pow_right (by omega) h53
      have : z < 2 ^ 1024 := lt_trans h h2
      exact_mod_cast this
    rw [if_neg hov, if_pos (by positivity)]

/-- Values of the binary64 rounding: `1/10` goes to the nearest value with a
53-bit significand; `2^53 + 1` is a tie and goes to the even neighbour `2^53`,
and `2^53 + 3` to `2^53 + 4`; `1/4` and `-2` are exact; the subnormal
`3 / 2^1075` goes to `2^(-1073)`; `2^1024` is not finite. -/
theorem to_double_examples :
    to_double (1 / 10) = some (3602879701896397 / 36028797018963968) ∧
    to_double 9007199254740993 = some 9007199254740992 ∧
    to_double 9007199254740995 = some 9007199254740996 ∧
    to_double (1 / 4) = some (1 / 4) ∧ to_double (-2) = some (-2) ∧
    to_double (3 / ((2 ^ 1075 : Nat) : ℚ)) = some (1 / ((2 ^ 1073 : Nat) : ℚ)) ∧
    to_double ((2 ^ 1024 : Nat) : ℚ) = none :=
  ⟨by decide!, by decide!, by decide!, by decide!, by decide!, by decide!, by decide!⟩

/-- The quantization is exact when the `double` operations are: the product
`v * factor` and `v` itself are binary64 values. -/
theorem quantize_exact (sig : Signal) (v : Nat) (hf : sig.factor ≠ 0)
    (h1 : isDouble ((v : ℚ) * sig.factor)) (h2 : isDouble (v : ℚ)) (h3 : v < 2 ^ 63) :
    quantize sig ((v : ℚ) * sig.factor + sig.offset) = (v : Int) := by
  unfold quantize double_div
  have e1 : (v : ℚ) * sig.factor + sig.offset - sig.offset = (v : ℚ) * sig.factor := by ring
  have e2 : (v : ℚ) * sig.factor / sig.factor = (v : ℚ) := by field_simp
  unfold isDouble at h1 h2
  rw [e1, h1]
  dsimp only
  rw [if_neg hf, e2, h2]
  dsimp only
  have e3 : c_round (v : ℚ) = (v : Int) := by
    have := c_round_intCast (v : Int)
    simpa using this
  rw [e3]
  unfold double_to_int64
  have : ((v : Int)) < 2 ^ 63 := by exact_mod_cast h3
  rw [if_pos ⟨by have : (0 : Int) ≤ v := Int.ofNat_nonneg v; omega, this⟩]

/-- With factor 1 and offset 0 a natural number below `2 ^ 53` is quantized to
itself. -/
theorem quantize_unit (sig : Signal) (z : Nat) (hf : sig.factor = 1) (ho : sig.offset = 0)
    (hz : z < 2 ^ 53) : quantize sig (z : ℚ) = (z : Int) := by
  have h := quantize_exact sig z (by rw [hf]; norm_num)
    (by rw [hf, mul_one]; exact to_double_natCast z hz) (to_double_natCast z hz)
    (lt_trans hz (by norm_num))
  rw [hf, ho] at h
  simpa using h

theorem wrap_negative_of_nonneg (sig : Signal) (z : Int) (h : 0 ≤ z) : wrap_negative sig z = z := by
  unfold wrap_negative
  rw [if_neg (by omega)]

theorem readField_congr (m1 m2 : List Nat) (sig : Signal)
    (h : ∀ k, k < sig.size → bitAtPos m1 (bitPos sig k) = bitAtPos m2 (bitPos sig k)) :
    readField m1 sig = readField m2 sig :=
  readBits_congr m1 m2 sig sig.size h

theorem pack_values_single (p : CANPacker) (address : Nat) (sv : SignalPackValue) (sig : Signal)
    (ret : List Nat) (cs : Bool) (ctr : Nat → Option Nat)
    (hs : p.signal_lookup (address, sv.name) = some sig) :
    pack_values p address [sv] ret cs ctr =
      (.ok (set_value ret sig (wrap_negative sig (quantize sig sv.value)),
          cs || (sv.name == "COUNTER")),
        if (cs || (sv.name == "COUNTER")) = true then
          map_insert ctr address (double_to_counter sv.value) else ctr) := by
  unfold pack_values
  rw [hs]
  dsimp only
  unfold pack_values
  rfl

theorem bitAt_zipWith_or (l1 l2 : List Nat) (b j : Nat) (h1 : b < l1.length)
    (h2 : b < l2.length) :
    bitAt (List.zipWith (fun x y => x ||| y) l1 l2) b j = (bitAt l1 b j || bitAt l2 b j) := by
  unfold bitAt
  have h3 : b < (List.zipWith (fun x y => x ||| y) l1 l2).length := by
    rw [List.length_zipWith]; omega
  rw [List.getD_eq_getElem _ _ h3, List.getD_eq_getElem _ _ h1, List.getD_eq_getElem _ _ h2,
    List.getElem_zipWith, Nat.testBit_or]

theorem bitAt_replicate_zero (n b j : Nat) : bitAt (List.replicate n 0) b j = false := by
  have := bitAtPos_replicate_zero n ((b : Int), j)
  unfold bitAtPos at this
  rw [if_pos (by simp)] at this
  simpa using this

theorem disjointFields_symm (a b : Signal) (h : disjointFields a b) : disjointFields b a :=
  fun k hk l hl => (h l hl k hk).symm

/-- The bit of a buffer after two writes to disjoint fields, the second of them
in bounds, starting from zeros. -/
theorem bitAt_two_writes (n : Nat) (A B : Signal) (x y : Int) (b j : Nat)
    (hB : inBounds B n) (hd : disjointFields A B) (hb : b < n) :
    bitAt (set_value (set_value (List.replicate n 0) A x) B y) b j =
      (bitAt (set_value (List.replicate n 0) A x) b j ||
        bitAt (set_value (List.replicate n 0) B y) b j) := by
  have hlen : (List.replicate n (0 : Nat)).length = n := List.length_replicate _ _
  by_cases hj : j < 8
  · by_cases hinB : ∃ l, l < B.size ∧ bitPos B l = ((b : Int), j)
    · obtain ⟨l, hl, hpos⟩ := hinB
      have h0 := start_byte_of_inBounds B n hB (by omega)
      have hnA : ∀ k, k < A.size → bitPos A k ≠ ((b : Int), j) := by
        intro k hk heq
        exact hd k hk l hl (heq.trans hpos.symm)
      rw [bitAt_set_value_field _ B y l b j hl hpos (by rw [length_set_value, hlen]; exact hb)
          (by rw [length_set_value, hlen]; exact h0),
        bitAt_set_value_field _ B y l b j hl hpos (by rw [hlen]; exact hb)
          (by rw [hlen]; exact h0),
        bitAt_set_value_frame _ A x b j hj hnA, bitAt_replicate_zero]
      simp
    · have hnB : ∀ l, l < B.size → bitPos B l ≠ ((b : Int), j) := by
        intro l hl heq
        exact hinB ⟨l, hl, heq⟩
      rw [bitAt_set_value_frame _ B y b j hj hnB, bitAt_set_value_frame _ B y b j hj hnB,
        bitAt_replicate_zero]
      simp
  · have hv := validBytes_replicate n
    rw [bitAt_high _ (validBytes_set_value _ _ _ (validBytes_set_value _ _ _ hv)) b j (by omega),
      bitAt_high _ (validBytes_set_value _ _ _ hv) b j (by omega),
      bitAt_high _ (validBytes_set_value _ _ _ hv) b j (by omega)]
    rfl

theorem two_writes_eq_or (n : Nat) (A B : Signal) (x y : Int)
    (hB : inBounds B n) (hd : disjointFields A B) :
    set_value (set_value (List.replicate n 0) A x) B y =
      List.zipWith (fun u w => u ||| w) (set_value (List.replicate n 0) A x)
        (set_value (List.replicate n 0) B y) := by
  have hlen : (List.replicate n (0 : Nat)).length = n := List.length_replicate _ _
  apply buffer_ext
  · rw [List.length_zipWith]; simp only [length_set_value, hlen]; simp
  · intro b j hb
    simp only [length_set_value, hlen] at hb
    rw [bitAt_zipWith_or _ _ _ _ (by simp only [length_set_value, hlen]; exact hb)
      (by simp only [length_set_value, hlen]; exact hb)]
    exact bitAt_two_writes n A B x y b j hB hd hb

theorem zipWith_or_comm (l1 l2 : List Nat) :
    List.zipWith (fun u w => u ||| w) l1 l2 = List.zipWith (fun u w => u ||| w) l2 l1 := by
  rw [List.zipWith_comm]
  congr 1
  funext u w
  exact Nat.lor_comm w u

theorem pack_values_cons (p : CANPacker) (address : Nat) (sv : SignalPackValue)
    (rest : List SignalPackValue) (sig : Signal) (ret : List Nat) (cs : Bool)
    (ctr : Nat → Option Nat) (hs : p.signal_lookup (address, sv.name) = some sig) :
    pack_values p address (sv :: rest) ret cs ctr =
      pack_values p address rest (set_value ret sig (wrap_negative sig (quantize sig sv.value)))
        (cs || (sv.name == "COUNTER"))
        (if (cs || (sv.name == "COUNTER")) = true then
          map_insert ctr address (double_to_counter sv.value) else ctr) := by
  conv_lhs => unfold pack_values
  rw [hs]

theorem name_ne_counter (p : CANPacker) (address : Nat) (name : String) (sig : Signal)
    (hc : p.signal_lookup (address, "COUNTER") = none)
    (hs : p.signal_lookup (address, name) = some sig) : (name == "COUNTER") = false := by
  rw [beq_eq_false_iff_ne]
  intro h
  rw [h, hc] at hs
  cases hs

/-- The call `pack` on a message with neither a COUNTER signal nor a hooked CHECKSUM
signal: the buffer is the zero buffer with the given values written in order, and
the packer is unchanged. -/
theorem pack_plain_two (p : CANPacker) (address : Nat) (m : Msg) (A B : Signal) (a b : ℚ)
    (hm : p.message_lookup address = some m)
    (hA : p.signal_lookup (address, A.name) = some A)
    (hB : p.signal_lookup (address, B.name) = some B)
    (hc : p.signal_lookup (address, "COUNTER") = none)
    (hk : ∀ c, p.signal_lookup (address, "CHECKSUM") = some c → c.calc_checksum = none) :
    pack p address [⟨A.name, a⟩, ⟨B.name, b⟩] =
      (.ok (set_value (set_value (List.replicate m.size 0) A (wrap_negative A (quantize A a)))
        B (wrap_negative B (quantize B b))), p) := by
  have hv : pack_values p address [⟨A.name, a⟩, ⟨B.name, b⟩] (List.replicate m.size 0) false
      p.counters = (.ok (set_value (set_value (List.replicate m.size 0) A
        (wrap_negative A (quantize A a))) B (wrap_negative B (quantize B b)), false),
        p.counters) := by
    rw [pack_values_cons p address _ _ A _ _ _ hA, pack_values_single p address _ B _ _ _ hB]
    simp [name_ne_counter p address _ A hc hA, name_ne_counter p address _ B hc hB]
  have hp := pack_pre_of_ok p address _ m _ _ _ hm hv
  rw [pack_counter_of_none p address _ _ _ hc] at hp
  rw [pack_of_pre_ok _ _ _ _ _ hp, pack_checksum_of_none p address _ hk]

theorem pack_plain_one (p : CANPacker) (address : Nat) (m : Msg) (A : Signal) (a : ℚ)
    (hm : p.message_lookup address = some m)
    (hA : p.signal_lookup (address, A.name) = some A)
    (hc : p.signal_lookup (address, "COUNTER") = none)
    (hk : ∀ c, p.signal_lookup (address, "CHECKSUM") = some c → c.calc_checksum = none) :
    pack p address [⟨A.name, a⟩] =
      (.ok (set_value (List.replicate m.size 0) A (wrap_negative A (quantize A a))), p) := by
  have hv : pack_values p address [⟨A.name, a⟩] (List.replicate m.size 0) false
      p.counters = (.ok (set_value (List.replicate m.size 0) A
        (wrap_negative A (quantize A a)), false), p.counters) := by
    rw [pack_values_single p address _ A _ _ _ hA]
    simp [name_ne_counter p address _ A hc hA]
  have hp := pack_pre_of_ok p address _ m _ _ _ hm hv
  rw [pack_counter_of_none p address _ _ _ hc] at hp
  rw [pack_of_pre_ok _ _ _ _ _ hp, pack_checksum_of_none p address _ hk]

/-- C2. On a message with neither a COUNTER signal nor a hooked CHECKSUM signal,
two signals with in-bounds, non-overlapping fields can be packed in either order
with the same result, which is the byte-wise OR of the buffers of the two
single-signal calls; none of the calls changes the packer. -/
theorem disjoint_fields_commute (p : CANPacker) (address : Nat) (m : Msg) (A B : Signal)
    (a b : ℚ) (hm : p.message_lookup address = some m)
    (hA : p.signal_lookup (address, A.name) = some A)
    (hB : p.signal_lookup (address, B.name) = some B)
    (hc : p.signal_lookup (address, "COUNTER") = none)
    (hk : ∀ c, p.signal_lookup (address, "CHECKSUM") = some c → c.calc_checksum = none)
    (hbA : inBounds A m.size) (hbB : inBounds B m.size) (hd : disjointFields A B) :
    ∃ bufA bufB,
      pack p address [⟨A.name, a⟩] = (.ok bufA, p) ∧
      pack p address [⟨B.name, b⟩] = (.ok bufB, p) ∧
      pack p address [⟨A.name, a⟩, ⟨B.name, b⟩] =
        (.ok (List.zipWith (fun u w => u ||| w) bufA bufB), p) ∧
      pack p address [⟨B.name, b⟩, ⟨A.name, a⟩] =
        (.ok (List.zipWith (fun u w => u ||| w) bufA bufB), p) := by
  refine ⟨_, _, pack_plain_one p address m A a hm hA hc hk,
    pack_plain_one p address m B b hm hB hc hk, ?_, ?_⟩
  · rw [pack_plain_two p address m A B a b hm hA hB hc hk,
      two_writes_eq_or m.size A B _ _ hbB hd]
  · rw [pack_plain_two p address m B A b a hm hB hA hc hk,
      two_writes_eq_or m.size B A _ _ hbA (disjointFields_symm A B hd), zipWith_or_comm]

/-! ## Negative quantized values -/

theorem wrap_negative_eq (sig : Signal) (z : Int) (hn : sig.size < 64)
    (h1 : -(2 : Int) ^ sig.size ≤ z) (h2 : z < 0) :
    wrap_negative sig z = 2 ^ sig.size + z := by
  unfold wrap_negative
  rw [if_pos h2, shl64_one hn]
  have hP : (2 : Nat) ^ sig.size ≤ 2 ^ 63 := Nat.pow_le_pow_right (by decide) (by omega)
  have hP0 : 0 < (2 : Nat) ^ sig.size := by positivity
  have hcast : ((2 : Int) ^ sig.size) = (((2 : Nat) ^ sig.size : Nat) : Int) := by norm_cast
  rw [hcast] at h1 ⊢
  generalize (2 : Nat) ^ sig.size = P at hP hP0 h1 ⊢
  unfold toUInt64 toInt64
  norm_num at hP ⊢
  have e : (z % 18446744073709551616).toNat = (z + 18446744073709551616).toNat := by omega
  rw [e]
  split_ifs with h <;> omega

/-- C8. Two's-complement wrap of a negative quantized value: for a signal of
size `n < 64` with an in-bounds field and a value whose quantized integer `ival`
satisfies `-2^n ≤ ival < 0`, the entry of the values loop writes the unsigned
value `2^n + ival` into the field, from any buffer, and a `pack` of that one
value returns it in the field when no field written afterwards overlaps it. In
Scenario A, `V = -1` gives `[0xFF]` and `V = 200` gives `[0xC8]`. -/
theorem negative_value_wraps :
    (∀ (p : CANPacker) (address : Nat) (sv : SignalPackValue) (sig : Signal),
      p.signal_lookup (address, sv.name) = some sig → sig.size < 64 →
      -(2 : Int) ^ sig.size ≤ quantize sig sv.value → quantize sig sv.value < 0 →
      (∀ (ret : List Nat) (cs : Bool) (ctr : Nat → Option Nat), inBounds sig ret.length →
        ∃ ret1 cs1 ctr1, pack_values p address [sv] ret cs ctr = (.ok (ret1, cs1), ctr1) ∧
          readField ret1 sig = (2 ^ sig.size + quantize sig sv.value).toNat) ∧
      (∀ m, p.message_lookup address = some m → inBounds sig m.size →
        (sv.name = "COUNTER" ∨
          ∀ c, p.signal_lookup (address, "COUNTER") = some c → disjointFields c sig) →
        (∀ c h, p.signal_lookup (address, "CHECKSUM") = some c →
          c.calc_checksum = some h → disjointFields c sig) →
        ∃ buf, (pack p address [sv]).1 = .ok buf ∧
          readField buf sig = (2 ^ sig.size + quantize sig sv.value).toNat)) ∧
    (pack examplePacker 1 [⟨"V", -1⟩]).1 = .ok [0xFF] ∧
    (pack examplePacker 1 [⟨"V", 200⟩]).1 = .ok [0xC8] := by
  refine ⟨?_, by decide!, by decide!⟩
  intro p address sv sig hs hn h1 h2
  have hw := wrap_negative_eq sig _ hn h1 h2
  have hval : ((2 ^ sig.size + quantize sig sv.value) % 2 ^ sig.size).toNat =
      (2 ^ sig.size + quantize sig sv.value).toNat := by
    have hP0 : (0 : Int) < 2 ^ sig.size := by positivity
    rw [Int.emod_eq_of_lt (by omega) (by omega)]
  constructor
  · intro ret cs ctr hb
    refine ⟨_, _, _, pack_values_single p address sv sig ret cs ctr hs, ?_⟩
    rw [readField_set_value _ sig _ hb, hw, hval]
  · intro m hm hb hcnt hchk
    have hv1 := pack_values_single p address sv sig (List.replicate m.size 0) false p.counters hs
    have hp := pack_pre_of_ok p address _ m _ _ _ hm hv1
    refine ⟨_, by rw [pack_of_pre_ok _ _ _ _ _ hp], ?_⟩
    have hcs : (false || (sv.name == "COUNTER")) = true ∨
        ∀ c, p.signal_lookup (address, "COUNTER") = some c → disjointFields c sig := by
      rcases hcnt with h | h
      · left; simp [h]
      · right; exact h
    rw [readField_congr _ _ sig (fun k hk => pack_checksum_frame p address _ sig hchk k hk),
      readField_congr _ _ sig (fun k hk => pack_counter_frame p address _ _ _ sig hcs k hk),
      readField_set_value _ sig _ (by rw [List.length_replicate]; exact hb), hw, hval]

/-- Instance of C8: `V = -1` in Scenario A, quantized to `-1`, reads back as 255. -/
theorem negative_value_wraps_witness :
    (∃ buf, (pack examplePacker 1 [⟨"V", -1⟩]).1 = .ok buf ∧
      readField buf sigV = (2 ^ sigV.size + quantize sigV (-1)).toNat) ∧
    (2 ^ sigV.size + quantize sigV (-1)).toNat = 255 :=
  ⟨(negative_value_wraps.1 examplePacker 1 ⟨"V", -1⟩ sigV (by rfl) (by decide) (by decide!)
      (by decide!)).2 msgA (by rfl) (by decide)
      (Or.inr (fun c hc => by
        have h0 : examplePacker.signal_lookup (1, "COUNTER") = none := by rfl
        rw [h0] at hc; cases hc))
      (fun c h hc => by
        have h0 : examplePacker.signal_lookup (1, "CHECKSUM") = none := by rfl
        rw [h0] at hc; cases hc),
    by decide!⟩

/-! ## The rolling counter -/

/-- A call of `pack` changes no lookup map. -/
theorem pack_registry (p : CANPacker) (address : Nat) (values : List SignalPackValue) :
    (pack p address values).2.signal_lookup = p.signal_lookup ∧
    (pack p address values).2.message_lookup = p.message_lookup ∧
    (pack p address values).2.message_name_to_address = p.message_name_to_address := by
  cases hm : p.message_lookup address with
  | none => rw [pack_of_unknown_address p address values hm]; exact ⟨rfl, rfl, rfl⟩
  | some m =>
    rcases hv : pack_values p address values (List.replicate m.size 0) false p.counters with
      ⟨r, ctr⟩
    cases r with
    | error e =>
      rw [pack_of_pre_error _ _ _ _ _ (pack_pre_of_error p address values m e ctr hm hv)]
      exact ⟨rfl, rfl, rfl⟩
    | ok r1 =>
      rw [pack_of_pre_ok _ _ _ _ _ (pack_pre_of_ok p address values m r1.1 r1.2 ctr hm hv)]
      exact ⟨rfl, rfl, rfl⟩

theorem pack_values_no_counter (p : CANPacker) (address : Nat) :
    ∀ (values : List SignalPackValue) (ret : List Nat) (ctr : Nat → Option Nat),
      (∀ sv, sv ∈ values → sv.name ≠ "COUNTER" ∧ p.signal_lookup (address, sv.name) ≠ none) →
      ∃ ret1, pack_values p address values ret false ctr = (.ok (ret1, false), ctr) := by
  intro values
  induction values with
  | nil => intro ret ctr _; exact ⟨ret, rfl⟩
  | cons sv rest ih =>
    intro ret ctr h
    obtain ⟨h1, h2⟩ := h sv (List.mem_cons_self _ _)
    obtain ⟨sig, hs⟩ := Option.ne_none_iff_exists'.mp h2
    rw [pack_values_cons p address sv rest sig ret false ctr hs]
    have hb : (sv.name == "COUNTER") = false := by rw [beq_eq_false_iff_ne]; exact h1
    simp only [hb, Bool.or_self, Bool.false_eq_true, if_false]
    exact ih _ _ (fun x hx => h x (List.mem_cons_of_mem _ hx))

theorem pack_counter_auto (p : CANPacker) (address : Nat) (c : Signal) (ret : List Nat)
    (ctr : Nat → Option Nat) (hc : p.signal_lookup (address, "COUNTER") = some c) :
    (pack_counter p address false ret ctr).1 =
        set_value ret c (Int.ofNat ((ctr address).getD 0)) ∧
    (pack_counter p address false ret ctr).2 address =
        some ((((ctr address).getD 0) + 1) % 2 ^ 32 % shl32_one c.size) := by
  unfold pack_counter
  rw [hc]
  dsimp only
  rw [if_neg (by simp)]
  cases h : ctr address with
  | none => simp [map_insert]
  | some x => simp [map_insert, h]

theorem shl32_one_eq (n : Nat) (h : n ≤ 30) : shl32_one n = 2 ^ n := by
  unfold shl32_one
  have h1 : n % 32 = n := Nat.mod_eq_of_lt (by omega)
  have h2 : (2 : Nat) ^ n < 2 ^ 32 := Nat.pow_lt_pow_right (by decide) (by omega)
  rw [h1, Nat.one_shiftLeft, Nat.mod_eq_of_lt h2]

/-- One `pack` call that supplies no COUNTER value on a message with a COUNTER
signal: the counter field of the returned buffer holds the stored counter, and
the stored counter advances modulo `2 ^ size`. -/
theorem pack_auto_counter (p : CANPacker) (address : Nat) (m : Msg) (c : Signal)
    (values : List SignalPackValue)
    (hm : p.message_lookup address = some m)
    (hc : p.signal_lookup (address, "COUNTER") = some c)
    (hb : inBounds c m.size)
    (hchk : ∀ s h, p.signal_lookup (address, "CHECKSUM") = some s →
      s.calc_checksum = some h → disjointFields s c)
    (hvals : ∀ sv, sv ∈ values →
      sv.name ≠ "COUNTER" ∧ p.signal_lookup (address, sv.name) ≠ none) :
    ∃ buf, (pack p address values).1 = .ok buf ∧
      readField buf c = ((p.counters address).getD 0) % 2 ^ c.size ∧
      (pack p address values).2.counters address =
        some ((((p.counters address).getD 0) + 1) % 2 ^ 32 % shl32_one c.size) := by
  obtain ⟨ret1, hv⟩ := pack_values_no_counter p address values (List.replicate m.size 0)
    p.counters hvals
  have hlen : ret1.length = m.size := by
    have := pack_values_length p address _ _ _ _ _ _ hv
    rw [List.length_replicate] at this
    exact this
  have hp := pack_pre_of_ok p address values m ret1 false p.counters hm hv
  have ha := pack_counter_auto p address c ret1 p.counters hc
  rw [pack_of_pre_ok _ _ _ _ _ hp]
  refine ⟨_, rfl, ?_, ha.2⟩
  rw [readField_congr _ _ c (fun k hk => pack_checksum_frame p address _ c hchk k hk), ha.1,
    readField_set_value _ c _ (by rw [hlen]; exact hb), toNat_ofNat_emod]

theorem counter_sequence (address : Nat) (m : Msg) (c : Signal) (hn : c.size ≤ 30)
    (hb : inBounds c m.size) :
    ∀ (calls : List (List SignalPackValue)) (p : CANPacker) (j : Nat),
      p.message_lookup address = some m →
      p.signal_lookup (address, "COUNTER") = some c →
      (∀ s h, p.signal_lookup (address, "CHECKSUM") = some s →
        s.calc_checksum = some h → disjointFields s c) →
      (∀ values, values ∈ calls → ∀ sv, sv ∈ values →
        sv.name ≠ "COUNTER" ∧ p.signal_lookup (address, sv.name) ≠ none) →
      (p.counters address).getD 0 = j % 2 ^ c.size →
      ∀ k, k < calls.length →
        ∃ buf, (pack_calls p address calls).1[k]? = some (.ok buf) ∧
          readField buf c = (j + k) % 2 ^ c.size := by
  intro calls
  induction calls with
  | nil => intro p j _ _ _ _ _ k hk; simp at hk
  | cons values rest ih =>
    intro p j hm hc hchk hvals hj k hk
    obtain ⟨buf, hbuf, hread, hctr⟩ := pack_auto_counter p address m c values hm hc hb hchk
      (hvals values (List.mem_cons_self _ _))
    obtain ⟨hr1, hr2, _⟩ := pack_registry p address values
    unfold pack_calls
    dsimp only
    cases k with
    | zero =>
      refine ⟨buf, by simp [hbuf], ?_⟩
      rw [hread, hj]; simp
    | succ k1 =>
      have hnext : ((pack p address values).2.counters address).getD 0 =
          (j + 1) % 2 ^ c.size := by
        rw [hctr, Option.getD_some, hj, shl32_one_eq c.size hn]
        have h1 : j % 2 ^ c.size < 2 ^ c.size := Nat.mod_lt _ (by positivity)
        have h2 : (2 : Nat) ^ c.size ≤ 2 ^ 30 := Nat.pow_le_pow_right (by decide) hn
        rw [Nat.mod_eq_of_lt (a := j % 2 ^ c.size + 1) (by norm_num at h2 ⊢; omega),
          Nat.mod_add_mod]
      obtain ⟨buf2, h3, h4⟩ := ih (pack p address values).2 (j + 1) (by rw [hr2]; exact hm)
        (by rw [hr1]; exact hc) (by rw [hr1]; exact hchk)
        (by rw [hr1]; exact fun v hv => hvals v (List.mem_cons_of_mem _ hv)) hnext k1
        (by simpa using hk)
      refine ⟨buf2, by simpa using h3, ?_⟩
      rw [h4]; congr 1; omega

/-- C3. Counter auto-increment: on a packer whose counter for the address is
fresh, for a message with an in-bounds COUNTER signal of size `n ≤ 30` that no
hooked CHECKSUM field overlaps, the `k`-th of consecutive `pack` calls that
supply known signals but no COUNTER value returns a buffer whose counter field
holds `k mod 2^n`. -/
theorem counter_auto_increment (p : CANPacker) (address : Nat) (m : Msg) (c : Signal)
    (calls : List (List SignalPackValue))
    (hm : p.message_lookup address = some m)
    (hc : p.signal_lookup (address, "COUNTER") = some c)
    (hn : c.size ≤ 30) (hb : inBounds c m.size)
    (hfresh : p.counters address = none)
    (hchk : ∀ s h, p.signal_lookup (address, "CHECKSUM") = some s →
      s.calc_checksum = some h → disjointFields s c)
    (hvals : ∀ values, values ∈ calls → ∀ sv, sv ∈ values →
      sv.name ≠ "COUNTER" ∧ p.signal_lookup (address, sv.name) ≠ none)
    (k : Nat) (hk : k < calls.length) :
    ∃ buf, (pack_calls p address calls).1[k]? = some (.ok buf) ∧
      readField buf c = k % 2 ^ c.size := by
  have h := counter_sequence address m c hn hb calls p 0 hm hc hchk hvals
    (by rw [hfresh]; simp) k hk
  simpa using h

theorem pack_counter_of_set (p : CANPacker) (address : Nat) (ret : List Nat)
    (ctr : Nat → Option Nat) : pack_counter p address true ret ctr = (ret, ctr) := by
  unfold pack_counter
  cases p.signal_lookup (address, "COUNTER") with
  | none => rfl
  | some c => simp

theorem double_to_counter_natCast (z : Nat) (h : z < 2 ^ 32) :
    double_to_counter (z : ℚ) = z := by
  unfold double_to_counter c_trunc
  rw [if_pos (by positivity), Int.floor_natCast]
  have : ((z : Int) % 2 ^ 32) = ((z % 2 ^ 32 : Nat) : Int) := by norm_cast
  rw [this, Int.toNat_natCast, Nat.mod_eq_of_lt h]

/-- C4 (amended). After `pack(addr, [COUNTER = 2])` on a message whose COUNTER
signal has factor 1, offset 0, a size of at least 2 and an in-bounds field that no
hooked CHECKSUM field overlaps, the next `pack(addr, [])` returns a buffer whose
counter field holds 2 again: the supplied value is stored as the next value to
write, and the stored counter advances only after that write. -/
theorem explicit_counter_then_auto (p : CANPacker) (address : Nat) (m : Msg) (c : Signal)
    (hm : p.message_lookup address = some m)
    (hc : p.signal_lookup (address, "COUNTER") = some c)
    (hf : c.factor = 1) (ho : c.offset = 0) (hn : 2 ≤ c.size) (hb : inBounds c m.size)
    (hchk : ∀ s h, p.signal_lookup (address, "CHECKSUM") = some s →
      s.calc_checksum = some h → disjointFields s c) :
    ∃ buf1 buf2, (pack p address [⟨"COUNTER", 2⟩]).1 = .ok buf1 ∧ readField buf1 c = 2 ∧
      (pack p address [⟨"COUNTER", 2⟩]).2.counters address = some 2 ∧
      (pack (pack p address [⟨"COUNTER", 2⟩]).2 address []).1 = .ok buf2 ∧
      readField buf2 c = 2 := by
  have h4 : 2 < 2 ^ c.size := by
    calc 2 < 2 ^ 2 := by decide
      _ ≤ 2 ^ c.size := Nat.pow_le_pow_right (by decide) hn
  have hq : quantize c 2 = 2 := by
    have := quantize_unit c 2 hf ho (by norm_num)
    simpa using this
  have hd : double_to_counter 2 = 2 := by
    have := double_to_counter_natCast 2 (by norm_num)
    simpa using this
  have hv1 := pack_values_single p address ⟨"COUNTER", 2⟩ c (List.replicate m.size 0) false
    p.counters hc
  simp only [hq, hd, wrap_negative_of_nonneg c 2 (by norm_num), Bool.false_or, beq_self_eq_true,
    if_true] at hv1
  have hp := pack_pre_of_ok p address _ m _ _ _ hm hv1
  rw [pack_counter_of_set] at hp
  have hpk := pack_of_pre_ok _ _ _ _ _ hp
  obtain ⟨hr1, hr2, _⟩ := pack_registry p address [⟨"COUNTER", 2⟩]
  obtain ⟨buf2, h1, h2, _⟩ := pack_auto_counter (pack p address [⟨"COUNTER", 2⟩]).2 address m c []
    (by rw [hr2]; exact hm) (by rw [hr1]; exact hc) hb (by rw [hr1]; exact hchk) (by simp)
  have hst : (pack p address [⟨"COUNTER", 2⟩]).2.counters address = some 2 := by
    rw [hpk]; simp [map_insert]
  refine ⟨_, buf2, by rw [hpk], ?_, hst, h1, ?_⟩
  · rw [readField_congr _ _ c (fun k hk => pack_checksum_frame p address _ c hchk k hk),
      readField_set_value _ c _ (by rw [List.length_replicate]; exact hb)]
    have : ((2 : Int) % 2 ^ c.size).toNat = 2 % 2 ^ c.size := toNat_ofNat_emod 2 c.size
    rw [this, Nat.mod_eq_of_lt h4]
  · rw [h2, hst, Option.getD_some, Nat.mod_eq_of_lt h4]

theorem pack_values_last_counter (p : CANPacker) (address : Nat) (last : SignalPackValue)
    (hname : last.name = "COUNTER") :
    ∀ (values : List SignalPackValue) (ret : List Nat) (cs : Bool) (ctr : Nat → Option Nat)
      (r : List Nat × Bool) (ctr1 : Nat → Option Nat),
      pack_values p address values ret cs ctr = (.ok r, ctr1) →
      values.getLast? = some last →
      r.2 = true ∧ ctr1 address = some (double_to_counter last.value) := by
  intro values
  induction values with
  | nil => intro ret cs ctr r ctr1 _ h; simp at h
  | cons sv rest ih =>
    intro ret cs ctr r ctr1 h hl
    cases hs : p.signal_lookup (address, sv.name) with
    | none =>
      unfold pack_values at h
      rw [hs] at h; simp at h
    | some sig =>
      rw [pack_values_cons p address sv rest sig ret cs ctr hs] at h
      cases rest with
      | nil =>
        simp only [List.getLast?_singleton, Option.some.injEq] at hl
        subst hl
        unfold pack_values at h
        simp only [hname, beq_self_eq_true, Bool.or_true, if_true, Prod.mk.injEq,
          Except.ok.injEq] at h
        obtain ⟨h1, h2⟩ := h
        rw [← h1, ← h2]
        simp [map_insert]
      | cons x rest1 =>
        rw [List.getLast?_cons_cons] at hl
        exact ih _ _ _ _ _ h hl

theorem double_to_counter_floor (v : ℚ) (h0 : 0 ≤ v) (h1 : v < 2 ^ 32) :
    double_to_counter v = ⌊v⌋.toNat := by
  unfold double_to_counter c_trunc
  rw [if_pos h0]
  have hf0 : 0 ≤ ⌊v⌋ := Int.floor_nonneg.mpr h0
  have hf1 : ⌊v⌋ < 2 ^ 32 := by
    have : ((⌊v⌋ : Int) : ℚ) ≤ v := Int.floor_le v
    have h2 : ((⌊v⌋ : Int) : ℚ) < ((2 ^ 32 : Int) : ℚ) := by push_cast; linarith
    exact_mod_cast h2
  rw [Int.emod_eq_of_lt hf0 hf1]

/-- C9 (amended). On a successful `pack` whose last entry is named COUNTER, the
stored counter of the address afterwards is that entry's supplied physical value
converted to `uint32_t`: for a value in `[0, 2^32)` its integer part. For a
COUNTER signal with factor 1 and offset 0 and a supplied integer value below
`2^32` this is the quantized integer of the entry. -/
theorem explicit_counter_state (p : CANPacker) (address : Nat) (values : List SignalPackValue)
    (buf : List Nat) (last : SignalPackValue)
    (hok : (pack p address values).1 = .ok buf)
    (hlast : values.getLast? = some last) (hname : last.name = "COUNTER") :
    (pack p address values).2.counters address = some (double_to_counter last.value) ∧
    (0 ≤ last.value → last.value < 2 ^ 32 →
      (pack p address values).2.counters address = some ⌊last.value⌋.toNat) ∧
    (∀ (c : Signal) (z : Nat), c.factor = 1 → c.offset = 0 → last.value = (z : ℚ) →
      z < 2 ^ 32 → (double_to_counter last.value : Int) = quantize c last.value) := by
  have key : (pack p address values).2.counters address =
      some (double_to_counter last.value) := by
    obtain ⟨pre, hpre, _, hst⟩ := pack_ok_inv p address values buf hok
    obtain ⟨m, ret, cs, ctr, hm, hv, hp, _⟩ := pack_pre_ok_inv p address values pre hpre
    obtain ⟨h1, h2⟩ := pack_values_last_counter p address last hname values _ _ _ _ _ hv hlast
    simp only at h1
    subst h1
    rw [hst, hp, pack_counter_of_set]
    exact h2
  refine ⟨key, ?_, ?_⟩
  · intro h0 h1
    rw [key, double_to_counter_floor _ h0 h1]
  · intro c z hf ho hz hlt
    have hq : quantize c (z : ℚ) = (z : Int) :=
      quantize_unit c z hf ho (lt_trans hlt (by norm_num))
    rw [hz, hq, double_to_counter_natCast z hlt]

/-! ## Instances on the example catalog -/

/-- Instance of C2: Scenario B, `A = 5` and `B = 100`. -/
theorem disjoint_fields_commute_witness :
    ∃ bufA bufB,
      pack examplePacker 2 [⟨sigA.name, 5⟩] = (.ok bufA, examplePacker) ∧
      pack examplePacker 2 [⟨sigB.name, 100⟩] = (.ok bufB, examplePacker) ∧
      pack examplePacker 2 [⟨sigA.name, 5⟩, ⟨sigB.name, 100⟩] =
        (.ok (List.zipWith (fun u w => u ||| w) bufA bufB), examplePacker) ∧
      pack examplePacker 2 [⟨sigB.name, 100⟩, ⟨sigA.name, 5⟩] =
        (.ok (List.zipWith (fun u w => u ||| w) bufA bufB), examplePacker) :=
  disjoint_fields_commute examplePacker 2 msgB sigA sigB 5 100 (by rfl) (by rfl) (by rfl)
    (by rfl)
    (fun c hc => by
      have h0 : examplePacker.signal_lookup (2, "CHECKSUM") = none := by rfl
      rw [h0] at hc; cases hc)
    (by decide) (by decide) (by decide)

theorem example_calls_known :
    ∀ values, values ∈ ([[], [⟨"X", 1 / 4⟩], [⟨"R", 5⟩], [], []] : List (List SignalPackValue)) →
      ∀ sv, sv ∈ values →
        sv.name ≠ "COUNTER" ∧ examplePacker.signal_lookup (16, sv.name) ≠ none := by
  intro values hv sv hsv
  simp only [List.mem_cons, List.mem_singleton, List.not_mem_nil, or_false] at hv
  rcases hv with rfl | rfl | rfl | rfl | rfl
  · simp at hsv
  · simp only [List.mem_singleton] at hsv
    subst hsv
    exact ⟨by decide, by
      have h0 : examplePacker.signal_lookup (16, "X") = some sigX := by rfl
      rw [h0]; simp⟩
  · simp only [List.mem_singleton] at hsv
    subst hsv
    exact ⟨by decide, by
      have h0 : examplePacker.signal_lookup (16, "R") = some sigR := by rfl
      rw [h0]; simp⟩
  · simp at hsv
  · simp at hsv

/-- Instance of C3: five consecutive calls on the example message with its 2-bit
counter give the counter values 0, 1, 2, 3 and 0. -/
theorem counter_auto_increment_witness :
    (∃ buf, (pack_calls examplePacker 16 [[], [⟨"X", 1 / 4⟩], [⟨"R", 5⟩], [], []]).1[0]? =
      some (.ok buf) ∧ readField buf sigCounter = 0) ∧
    (∃ buf, (pack_calls examplePacker 16 [[], [⟨"X", 1 / 4⟩], [⟨"R", 5⟩], [], []]).1[1]? =
      some (.ok buf) ∧ readField buf sigCounter = 1) ∧
    (∃ buf, (pack_calls examplePacker 16 [[], [⟨"X", 1 / 4⟩], [⟨"R", 5⟩], [], []]).1[2]? =
      some (.ok buf) ∧ readField buf sigCounter = 2) ∧
    (∃ buf, (pack_calls examplePacker 16 [[], [⟨"X", 1 / 4⟩], [⟨"R", 5⟩], [], []]).1[3]? =
      some (.ok buf) ∧ readField buf sigCounter = 3) ∧
    (∃ buf, (pack_calls examplePacker 16 [[], [⟨"X", 1 / 4⟩], [⟨"R", 5⟩], [], []]).1[4]? =
      some (.ok buf) ∧ readField buf sigCounter = 0) := by
  have h := counter_auto_increment examplePacker 16 msgDemo sigCounter
    [[], [⟨"X", 1 / 4⟩], [⟨"R", 5⟩], [], []] (by rfl) (by rfl) (by decide) (by decide) (by rfl)
    (fun c h hc _ => by
      have h0 : examplePacker.signal_lookup (16, "CHECKSUM") = some sigChecksum := by rfl
      rw [h0] at hc; cases hc; decide)
    example_calls_known
  exact ⟨h 0 (by decide), h 1 (by decide), h 2 (by decide), h 3 (by decide), h 4 (by decide)⟩

/-- C4 fails as stated: on the example message, whose COUNTER signal has factor 1,
offset 0 and size 2, the call after `pack(16, [COUNTER = 2])` returns a buffer
whose counter field holds 2, not 3. -/
theorem explicit_counter_counterexample :
    examplePacker.signal_lookup (16, "COUNTER") = some sigCounter ∧
    sigCounter.factor = 1 ∧ sigCounter.offset = 0 ∧ 2 ≤ sigCounter.size ∧
    (pack examplePacker 16 [⟨"COUNTER", 2⟩]).1 = .ok [32, 48, 0, 0] ∧
    (pack (pack examplePacker 16 [⟨"COUNTER", 2⟩]).2 16 []).1 = .ok [32, 48, 0, 0] ∧
    readField [32, 48, 0, 0] sigCounter = 2 ∧ readField [32, 48, 0, 0] sigCounter ≠ 3 :=
  ⟨by rfl, by decide!, by decide!, by decide, by decide!, by decide!, by decide, by decide⟩

/-- Instance of C4 (amended) on the example message. -/
theorem explicit_counter_then_auto_witness :
    ∃ buf1 buf2, (pack examplePacker 16 [⟨"COUNTER", 2⟩]).1 = .ok buf1 ∧
      readField buf1 sigCounter = 2 ∧
      (pack examplePacker 16 [⟨"COUNTER", 2⟩]).2.counters 16 = some 2 ∧
      (pack (pack examplePacker 16 [⟨"COUNTER", 2⟩]).2 16 []).1 = .ok buf2 ∧
      readField buf2 sigCounter = 2 :=
  explicit_counter_then_auto examplePacker 16 msgDemo sigCounter (by rfl) (by rfl) (by decide!)
    (by decide!) (by decide) (by decide)
    (fun c h hc _ => by
      have h0 : examplePacker.signal_lookup (16, "CHECKSUM") = some sigChecksum := by rfl
      rw [h0] at hc; cases hc; decide)

/-- C5 fails as stated: when the caller supplies `CHECKSUM = 5` on the example
message, the buffer handed to the hook holds 5 in the CHECKSUM field; bits 0 and
2 of the field are set. -/
theorem checksum_field_counterexample :
    examplePacker.signal_lookup (16, "CHECKSUM") = some sigChecksum ∧
    sigChecksum.calc_checksum = some sumChecksum ∧
    (pack_pre examplePacker 16 [⟨"CHECKSUM", 5⟩]).1 = .ok [0, 5, 0, 0] ∧
    (pack examplePacker 16 [⟨"CHECKSUM", 5⟩]).1 =
      .ok (set_value [0, 5, 0, 0] sigChecksum
        (Int.ofNat (sumChecksum 16 sigChecksum.toSignalLayout [0, 5, 0, 0] % 2 ^ 32))) ∧
    bitAtPos [0, 5, 0, 0] (bitPos sigChecksum 0) = true ∧
    bitAtPos [0, 5, 0, 0] (bitPos sigChecksum 2) = true ∧
    readField [0, 5, 0, 0] sigChecksum = 5 :=
  ⟨by rfl, by rfl, by decide!, by decide!, by decide, by decide, by decide⟩

/-- Instance of C5 (amended): the values `X` and `R` of the example message do
not touch the CHECKSUM field. -/
theorem checksum_field_zero_at_hook_witness :
    (pack examplePacker 16 [⟨"X", 1 / 4⟩, ⟨"R", 5⟩]).1 =
        .ok (set_value [9, 0, 0, 160] sigChecksum
          (Int.ofNat (sumChecksum 16 sigChecksum.toSignalLayout [9, 0, 0, 160] % 2 ^ 32))) ∧
      ∀ k, k < sigChecksum.size → bitAtPos [9, 0, 0, 160] (bitPos sigChecksum k) = false :=
  checksum_field_zero_at_hook examplePacker 16 [⟨"X", 1 / 4⟩, ⟨"R", 5⟩] [9, 0, 0, 160]
    sigChecksum sumChecksum (by decide!) (by rfl) (by rfl)
    (fun sv hsv sg hsg => by
      simp only [List.mem_cons, List.mem_singleton, List.not_mem_nil, or_false] at hsv
      rcases hsv with rfl | rfl
      · have h0 : examplePacker.signal_lookup (16, "X") = some sigX := by rfl
        rw [h0] at hsg; cases hsg; decide
      · have h0 : examplePacker.signal_lookup (16, "R") = some sigR := by rfl
        rw [h0] at hsg; cases hsg; decide)
    (fun c hc => by
      have h0 : examplePacker.signal_lookup (16, "COUNTER") = some sigCounter := by rfl
      rw [h0] at hc; cases hc; decide)

/-- Instance of C6: a call on the example message, whose CHECKSUM signal carries
the hook `sumChecksum`. -/
theorem checksum_computed_last_witness :
    ∃ pre, (pack_pre examplePacker 16 [⟨"X", 1 / 4⟩, ⟨"R", 5⟩]).1 = .ok pre ∧
      (∀ h, sigChecksum.calc_checksum = some h →
        [9, 185, 0, 160] =
          set_value pre sigChecksum (Int.ofNat (h 16 sigChecksum.toSignalLayout pre % 2 ^ 32)) ∧
        (∀ (b j : Nat), (∀ k, k < sigChecksum.size → bitPos sigChecksum k ≠ ((b : Int), j)) →
          bitAt [9, 185, 0, 160] b j = bitAt pre b j) ∧
        (inBounds sigChecksum pre.length →
          readField [9, 185, 0, 160] sigChecksum =
            (h 16 sigChecksum.toSignalLayout pre % 2 ^ 32) % 2 ^ sigChecksum.size)) ∧
      (sigChecksum.calc_checksum = none → [9, 185, 0, 160] = pre) :=
  checksum_computed_last examplePacker 16 [⟨"X", 1 / 4⟩, ⟨"R", 5⟩] [9, 185, 0, 160] sigChecksum
    (by decide!) (by rfl)

/-- C9 fails as stated: on the example message `pack(16, [COUNTER = 11/4])`
succeeds, the quantized integer written for the entry is 3, and the stored
counter afterwards is 2. Also, with an entry after the COUNTER entry,
`pack(16, [COUNTER = 2, X = 1])` writes 2 for the COUNTER entry and leaves the
value 1 of `X` as the stored counter. -/
theorem explicit_counter_state_counterexample :
    examplePacker.signal_lookup (16, "COUNTER") = some sigCounter ∧
    (pack examplePacker 16 [⟨"COUNTER", 11 / 4⟩]).1 = .ok [48, 64, 0, 0] ∧
    quantize sigCounter (11 / 4) = 3 ∧
    wrap_negative sigCounter (quantize sigCounter (11 / 4)) = 3 ∧
    readField [48, 64, 0, 0] sigCounter = 3 ∧
    (pack examplePacker 16 [⟨"COUNTER", 11 / 4⟩]).2.counters 16 = some 2 ∧
    (pack examplePacker 16 [⟨"COUNTER", 2⟩, ⟨"X", 1⟩]).1 = .ok [44, 60, 0, 0] ∧
    quantize sigCounter 2 = 2 ∧ readField [44, 60, 0, 0] sigCounter = 2 ∧
    (pack examplePacker 16 [⟨"COUNTER", 2⟩, ⟨"X", 1⟩]).2.counters 16 = some 1 :=
  ⟨by rfl, by decide!, by decide!, by decide!, by decide, by decide!, by decide!, by decide!,
    by decide, by decide!⟩

/-- Instance of C9 (amended): `COUNTER = 2` as the last entry on the example
message. -/
theorem explicit_counter_state_witness :
    (pack examplePacker 16 [⟨"X", 1 / 4⟩, ⟨"COUNTER", 2⟩]).2.counters 16 =
        some (double_to_counter 2) ∧
      double_to_counter 2 = 2 ∧ quantize sigCounter 2 = 2 :=
  ⟨(explicit_counter_state examplePacker 16 [⟨"X", 1 / 4⟩, ⟨"COUNTER", 2⟩] [41, 57, 0, 0]
      ⟨"COUNTER", 2⟩ (by decide!) (by rfl) (by rfl)).1, by decide!, by decide!⟩

/-- Instance of C10: Scenario B returns 2 bytes, and 2 zero bytes for no value. -/
theorem pack_output_size_witness :
    ([0x45, 0x06].length = msgB.size ∧ validBytes [0x45, 0x06]) ∧
      (pack examplePacker 2 []).1 = .ok (List.replicate msgB.size 0) :=
  ⟨(pack_output_size examplePacker 2 msgB (by rfl)).1 [⟨"A", 5⟩, ⟨"B", 100⟩] [0x45, 0x06]
      (by decide!),
    (pack_output_size examplePacker 2 msgB (by rfl)).2 (by rfl)
      (fun c hc => by
        have h0 : examplePacker.signal_lookup (2, "CHECKSUM") = none := by rfl
        rw [h0] at hc; cases hc)⟩

/-! ## The lookup maps -/

theorem lookup_message_of_known (p : CANPacker) (address : Nat) (m : Msg)
    (hm : p.message_lookup address = some m) : lookup_message p address = (m, p) := by
  unfold lookup_message
  rw [hm]

/-- C11. The lookup maps under the three operations: `pack` changes none of the
maps and `address_from_name` returns no new state, and `lookup_message` on an
address that `message_lookup` holds changes nothing; but `lookup_message` on an
absent address inserts an empty message. On the example catalog, address 99 is
absent and `pack(99, [])` fails with the unknown-address error, while after
`lookup_message(99)` the same call returns an empty buffer. -/
theorem lookup_message_inserts :
    (∀ (p : CANPacker) (address : Nat) (values : List SignalPackValue),
      (pack p address values).2.signal_lookup = p.signal_lookup ∧
      (pack p address values).2.message_lookup = p.message_lookup ∧
      (pack p address values).2.message_name_to_address = p.message_name_to_address) ∧
    (∀ (p : CANPacker) (address : Nat) (m : Msg), p.message_lookup address = some m →
      lookup_message p address = (m, p)) ∧
    examplePacker.message_lookup 99 = none ∧
    (pack examplePacker 99 []).1 = .error (.invalid_address 99) ∧
    (lookup_message examplePacker 99).2.message_lookup 99 =
      some { name := "", address := 0, size := 0, sigs := [] } ∧
    (pack (lookup_message examplePacker 99).2 99 []).1 = .ok [] :=
  ⟨pack_registry, lookup_message_of_known, by rfl, by decide!, by rfl, by decide!⟩

theorem foldl_sigs_names (address : Nat) (sigs : List Signal) :
    ∀ (q : CANPacker),
      (sigs.foldl (fun (q : CANPacker) (sig : Signal) =>
        { q with signal_lookup := map_insert q.signal_lookup (address, sig.name) sig }) q
        ).message_name_to_address = q.message_name_to_address := by
  induction sigs with
  | nil => intro q; rfl
  | cons s rest ih => intro q; rw [List.foldl_cons, ih]

/-- The step of the constructor for one message. -/
theorem create_step_names (p : CANPacker) (msg : Msg) :
    ((fun (p : CANPacker) (msg : Msg) =>
      let p1 : CANPacker :=
        { p with
          message_lookup := map_insert p.message_lookup msg.address msg
          message_name_to_address :=
            map_insert p.message_name_to_address msg.name msg.address }
      msg.sigs.foldl (fun (q : CANPacker) (sig : Signal) =>
        { q with signal_lookup := map_insert q.signal_lookup (msg.address, sig.name) sig }) p1)
      p msg).message_name_to_address =
    map_insert p.message_name_to_address msg.name msg.address := by
  dsimp only
  rw [foldl_sigs_names]

theorem create_names_foldl (s : String) :
    ∀ (msgs : List Msg) (p : CANPacker),
      ((msgs.foldl (fun (p : CANPacker) (msg : Msg) =>
        let p1 : CANPacker :=
          { p with
            message_lookup := map_insert p.message_lookup msg.address msg
            message_name_to_address :=
              map_insert p.message_name_to_address msg.name msg.address }
        msg.sigs.foldl (fun (q : CANPacker) (sig : Signal) =>
          { q with signal_lookup := map_insert q.signal_lookup (msg.address, sig.name) sig }) p1)
        p).message_name_to_address s =
      match (msgs.reverse.find? (fun m => decide (m.name = s))) with
      | some m => some m.address
      | none => p.message_name_to_address s) := by
  intro msgs
  induction msgs with
  | nil => intro p; rfl
  | cons x rest ih =>
    intro p
    rw [List.foldl_cons, ih, List.reverse_cons, List.find?_append]
    cases h : List.find? (fun m => decide (m.name = s)) rest.reverse with
    | some m => rfl
    | none =>
      simp only [Option.none_or, List.find?_cons, List.find?_nil]
      rw [create_step_names]
      unfold map_insert
      by_cases hx : x.name = s
      · simp [hx]
      · have : ¬ s = x.name := fun e => hx e.symm
        simp [hx, this]

theorem create_names (msgs : List Msg) (s : String) :
    (CANPacker.create msgs).message_name_to_address s =
      (msgs.reverse.find? (fun m => decide (m.name = s))).map (fun m => m.address) := by
  unfold CANPacker.create
  rw [create_names_foldl]
  cases List.find? (fun m => decide (m.name = s)) msgs.reverse with
  | some m => rfl
  | none => rfl

/-- C12. On the packer built from a catalog with unique message names,
`address_from_name(m.name)` returns `m.address` for every message `m` of the
catalog, and `address_from_name(s)` fails with the unknown-message-name error
exactly when no message of the catalog is named `s`. -/
theorem address_from_name_inverse (msgs : List Msg)
    (hu : (msgs.map (fun m => m.name)).Nodup) :
    (∀ m, m ∈ msgs → address_from_name (CANPacker.create msgs) m.name = .ok m.address) ∧
    (∀ s, address_from_name (CANPacker.create msgs) s = .error (.invalid_message_name s) ↔
      ∀ m, m ∈ msgs → m.name ≠ s) := by
  constructor
  · intro m hm
    unfold address_from_name
    rw [create_names]
    cases h : List.find? (fun x => decide (x.name = m.name)) msgs.reverse with
    | none =>
      rw [List.find?_eq_none] at h
      have := h m (List.mem_reverse.mpr hm)
      simp at this
    | some x =>
      have hx1 : x ∈ msgs := List.mem_reverse.mp (List.mem_of_find?_eq_some h)
      have hx2 : x.name = m.name := by simpa using List.find?_some h
      have : x = m := List.inj_on_of_nodup_map hu hx1 hm hx2
      subst this
      rfl
  · intro s
    unfold address_from_name
    rw [create_names]
    cases h : List.find? (fun x => decide (x.name = s)) msgs.reverse with
    | none =>
      rw [List.find?_eq_none] at h
      simp only [Option.map_none', true_iff]
      intro m hm
      simpa using h m (List.mem_reverse.mpr hm)
    | some x =>
      have hx1 : x ∈ msgs := List.mem_reverse.mp (List.mem_of_find?_eq_some h)
      have hx2 : x.name = s := by simpa using List.find?_some h
      simp only [Option.map_some']
      constructor
      · intro e; cases e
      · intro hn; exact absurd hx2 (hn x hx1)

/-- Instance of C12 on the example catalog. -/
theorem address_from_name_inverse_witness :
    (∀ m, m ∈ exampleMsgs → address_from_name examplePacker m.name = .ok m.address) ∧
    (∀ s, address_from_name examplePacker s = .error (.invalid_message_name s) ↔
      ∀ m, m ∈ exampleMsgs → m.name ≠ s) :=
  address_from_name_inverse exampleMsgs (by decide)

/-! ## Counters of other addresses -/

theorem pack_values_counters_other (p : CANPacker) (address B : Nat) (hB : B ≠ address) :
    ∀ (values : List SignalPackValue) (ret : List Nat) (cs : Bool) (ctr : Nat → Option Nat),
      (pack_values p address values ret cs ctr).2 B = ctr B := by
  intro values
  induction values with
  | nil => intro ret cs ctr; rfl
  | cons sv rest ih =>
    intro ret cs ctr
    unfold pack_values
    cases hs : p.signal_lookup (address, sv.name) with
    | none => rfl
    | some sig =>
      dsimp only
      rw [ih]
      split_ifs
      · unfold map_insert; rw [if_neg hB]
      · rfl

theorem pack_counter_counters_other (p : CANPacker) (address B : Nat) (hB : B ≠ address)
    (cs : Bool) (ret : List Nat) (ctr : Nat → Option Nat) :
    (pack_counter p address cs ret ctr).2 B = ctr B := by
  unfold pack_counter
  cases p.signal_lookup (address, "COUNTER") with
  | none => rfl
  | some c =>
    dsimp only
    split_ifs
    · rfl
    · cases h : ctr address with
      | none => simp [map_insert, hB]
      | some x => simp [map_insert, hB]

theorem pack_values_no_counter_signal (p : CANPacker) (address : Nat)
    (hc : p.signal_lookup (address, "COUNTER") = none) :
    ∀ (values : List SignalPackValue) (ret : List Nat) (ctr : Nat → Option Nat)
      (r : List Nat × Bool) (ctr1 : Nat → Option Nat),
      pack_values p address values ret false ctr = (.ok r, ctr1) →
      r.2 = false ∧ ctr1 = ctr := by
  intro values
  induction values with
  | nil =>
    intro ret ctr r ctr1 h
    unfold pack_values at h
    simp only [Prod.mk.injEq, Except.ok.injEq] at h
    exact ⟨by rw [← h.1], h.2.symm⟩
  | cons sv rest ih =>
    intro ret ctr r ctr1 h
    cases hs : p.signal_lookup (address, sv.name) with
    | none =>
      unfold pack_values at h
      rw [hs] at h; simp at h
    | some sig =>
      rw [pack_values_cons p address sv rest sig ret false ctr hs] at h
      simp only [name_ne_counter p address sv.name sig hc hs, Bool.or_self, Bool.false_eq_true,
        if_false] at h
      exact ih _ _ _ _ h

/-- C13. Counters are per address: `pack(A, values)`, whether it succeeds or
fails, leaves the stored counter of every other address as it was, and a
successful `pack` on a message without a COUNTER signal leaves the whole counter
map as it was. -/
theorem counters_per_address (p : CANPacker) (address : Nat) (values : List SignalPackValue) :
    (∀ B, B ≠ address → (pack p address values).2.counters B = p.counters B) ∧
    (∀ buf, (pack p address values).1 = .ok buf →
      p.signal_lookup (address, "COUNTER") = none →
      (pack p address values).2.counters = p.counters) := by
  constructor
  · intro B hB
    cases hm : p.message_lookup address with
    | none => rw [pack_of_unknown_address p address values hm]
    | some m =>
      rcases hv : pack_values p address values (List.replicate m.size 0) false p.counters with
        ⟨r, ctr⟩
      have hctr : ctr B = p.counters B := by
        have := pack_values_counters_other p address B hB values (List.replicate m.size 0)
          false p.counters
        rw [hv] at this
        exact this
      cases r with
      | error e =>
        rw [pack_of_pre_error _ _ _ _ _ (pack_pre_of_error p address values m e ctr hm hv)]
        exact hctr
      | ok r1 =>
        rw [pack_of_pre_ok _ _ _ _ _ (pack_pre_of_ok p address values m r1.1 r1.2 ctr hm hv)]
        show (pack_counter p address r1.2 r1.1 ctr).2 B = p.counters B
        rw [pack_counter_counters_other p address B hB, hctr]
  · intro buf hok hc
    obtain ⟨pre, hpre, _, hst⟩ := pack_ok_inv p address values buf hok
    obtain ⟨m, ret, cs, ctr, hm, hv, hp, _⟩ := pack_pre_ok_inv p address values pre hpre
    obtain ⟨_, h2⟩ := pack_values_no_counter_signal p address hc values _ _ _ _ hv
    rw [hst, hp, pack_counter_of_none p address _ _ _ hc, h2]

/-! ## Truncation and the modular wrap -/

theorem toUInt64_mod (x : Int) (n : Nat) (hn : n ≤ 64) :
    toUInt64 x % 2 ^ n = (x % 2 ^ n).toNat := by
  unfold toUInt64
  have h0 : (0 : Int) ≤ x % 2 ^ 64 := Int.emod_nonneg _ (by positivity)
  have hd : ((2 : Int) ^ n) ∣ 2 ^ 64 := pow_dvd_pow 2 hn
  have h1 : (((x % 2 ^ 64).toNat % 2 ^ n : Nat) : Int) = x % 2 ^ n := by
    rw [Int.natCast_mod, Int.toNat_of_nonneg h0]
    push_cast
    exact Int.emod_emod_of_dvd _ hd
  have h2 : (0 : Int) ≤ x % 2 ^ n := Int.emod_nonneg _ (by positivity)
  omega

theorem masked_eq (sig : Signal) (x : Int) (hn : sig.size < 64) :
    toInt64 (toUInt64 x &&& (shl64 1 sig.size - 1)) = x % 2 ^ sig.size := by
  rw [shl64_one hn, Nat.and_pow_two_sub_one_eq_mod, toUInt64_mod x sig.size (by omega)]
  have h0 : (0 : Int) ≤ x % 2 ^ sig.size := Int.emod_nonneg _ (by positivity)
  have h1 : x % 2 ^ sig.size < 2 ^ sig.size := Int.emod_lt_of_pos _ (by positivity)
  have h2 : (2 : Int) ^ sig.size ≤ 2 ^ 63 := pow_le_pow_right₀ (by norm_num) (by omega)
  unfold toInt64
  norm_num at h2 ⊢
  have h3 : ((x % 2 ^ sig.size).toNat : Int) = x % 2 ^ sig.size := Int.toNat_of_nonneg h0
  generalize x % 2 ^ sig.size = r at h0 h1 h3 ⊢
  generalize (2 : Int) ^ sig.size = P at h1 h2
  split_ifs with h <;> omega

/-- The value enters `set_value` only through its residue modulo `2 ^ size`. -/
theorem set_value_congr_mod (msg : List Nat) (sig : Signal) (x y : Int) (hn : sig.size < 64)
    (h : x % 2 ^ sig.size = y % 2 ^ sig.size) : set_value msg sig x = set_value msg sig y := by
  unfold set_value
  simp only [hn, if_true]
  rw [masked_eq sig x hn, masked_eq sig y hn, h]

/-- C15. Truncation to the field width: for a signal of size `n < 64`, two values
with the same residue modulo `2^n` give the same buffer, so `set_value` of a
value is `set_value` of its low `n` bits and the bits at position `n` and above
never reach the buffer. -/
theorem set_value_truncates (msg : List Nat) (sig : Signal) (x y : Int) (hn : sig.size < 64)
    (h : x % 2 ^ sig.size = y % 2 ^ sig.size) :
    set_value msg sig x = set_value msg sig y ∧
    set_value msg sig x = set_value msg sig (x % 2 ^ sig.size) :=
  ⟨set_value_congr_mod msg sig x y hn h,
    set_value_congr_mod msg sig x _ hn (Int.emod_emod_of_dvd x (dvd_refl _)).symm⟩

/-- Instance of C15: 0x1C8 and 0xC8 in the 8-bit signal `V`. -/
theorem set_value_truncates_witness :
    set_value [0] sigV 0x1C8 = set_value [0] sigV 0xC8 ∧
    set_value [0] sigV 0x1C8 = set_value [0] sigV (0x1C8 % 2 ^ sigV.size) :=
  set_value_truncates [0] sigV 0x1C8 0xC8 (by decide) (by decide)

theorem toInt64_emod (y n : Nat) (hn : n ≤ 64) : toInt64 y % 2 ^ n = (y : Int) % 2 ^ n := by
  have hd : ((2 : Int) ^ n) ∣ 2 ^ 64 := pow_dvd_pow 2 hn
  have h1 : (((y % 2 ^ 64 : Nat) : Int)) % 2 ^ n = (y : Int) % 2 ^ n := by
    push_cast
    exact Int.emod_emod_of_dvd _ hd
  unfold toInt64
  split_ifs
  · exact h1
  · obtain ⟨c, hc⟩ := hd
    rw [hc, sub_eq_add_neg, ← mul_neg, Int.add_mul_emod_self_left]
    exact h1

theorem wrap_negative_mod (sig : Signal) (ival : Int) (hn : sig.size < 64) :
    wrap_negative sig ival % 2 ^ sig.size = ival % 2 ^ sig.size := by
  unfold wrap_negative
  split_ifs with h
  · rw [toInt64_emod _ _ (by omega), shl64_one hn]
    have hd : ((2 : Int) ^ sig.size) ∣ 2 ^ 64 := pow_dvd_pow 2 (by omega)
    have h0 : (0 : Int) ≤ ival % 2 ^ sig.size := Int.emod_nonneg _ (by positivity)
    have h1 : ((toUInt64 ival % 2 ^ sig.size : Nat) : Int) = ival % 2 ^ sig.size := by
      rw [toUInt64_mod ival sig.size (by omega), Int.toNat_of_nonneg h0]
    have hd1 : ((2 : Int) ^ sig.size) ∣ 18446744073709551616 := by
      have := hd
      norm_num at this
      exact this
    push_cast at h1 ⊢
    rw [Int.emod_emod_of_dvd _ hd1, Int.add_emod_self_left, h1]
  · rfl

/-- C17. The wrap is modular for every quantized integer: for a signal of size
`n < 64` handing `(1ULL << n) + ival` or `ival` itself to `set_value` gives the
same buffer, an in-bounds field then reads `ival mod 2^n`, and this is what the
entry of the values loop of `pack` writes for a value quantized to `ival`. -/
theorem wrap_is_modular (sig : Signal) (ival : Int) (msg : List Nat) (hn : sig.size < 64)
    (hb : inBounds sig msg.length) :
    set_value msg sig (wrap_negative sig ival) = set_value msg sig ival ∧
    readField (set_value msg sig (wrap_negative sig ival)) sig = (ival % 2 ^ sig.size).toNat ∧
    (∀ (p : CANPacker) (address : Nat) (sv : SignalPackValue) (cs : Bool)
        (ctr : Nat → Option Nat),
      p.signal_lookup (address, sv.name) = some sig → quantize sig sv.value = ival →
      (pack_values p address [sv] msg cs ctr).1 =
        .ok (set_value msg sig ival, cs || (sv.name == "COUNTER"))) := by
  have h1 := set_value_congr_mod msg sig _ _ hn (wrap_negative_mod sig ival hn)
  refine ⟨h1, ?_, ?_⟩
  · rw [h1, readField_set_value msg sig ival hb]
  · intro p address sv cs ctr hs hq
    rw [pack_values_single p address sv sig msg cs ctr hs, hq, h1]

/-- Instance of C17: `V = -300` in Scenario A lies below `-2^8`; the field reads
`-300 mod 256 = 212`. -/
theorem wrap_is_modular_witness :
    (set_value [0] sigV (wrap_negative sigV (-300)) = set_value [0] sigV (-300) ∧
    readField (set_value [0] sigV (wrap_negative sigV (-300))) sigV =
      ((-300 : Int) % 2 ^ sigV.size).toNat ∧
    (∀ (p : CANPacker) (address : Nat) (sv : SignalPackValue) (cs : Bool)
        (ctr : Nat → Option Nat),
      p.signal_lookup (address, sv.name) = some sigV → quantize sigV sv.value = -300 →
      (pack_values p address [sv] [0] cs ctr).1 =
        .ok (set_value [0] sigV (-300), cs || (sv.name == "COUNTER")))) ∧
    ((-300 : Int) % 2 ^ sigV.size).toNat = 212 ∧
    (pack examplePacker 1 [⟨"V", -300⟩]).1 = .ok [212] :=
  ⟨wrap_is_modular sigV (-300) [0] (by decide) (by decide), by decide, by decide!⟩

/-! ## Exactly the field is written -/

/-- A field whose first byte lies outside the buffer leaves the buffer as it was. -/
theorem set_value_of_start_outside (msg : List Nat) (sig : Signal) (v : Int)
    (h : msg.length ≤ sig.lsb / 8) : set_value msg sig v = msg := by
  unfold set_value
  dsimp only
  cases hn : sig.size with
  | zero => rfl
  | succ n =>
    unfold set_value_loop
    rw [if_neg (by omega)]

/-- C14. The function `set_value` keeps the length of the buffer and every bit
that is not a bit position of the signal's field: each of the eight bits of each
byte, and every bit of a buffer of `uint8_t` bytes. A bit position of the field
in a byte of the buffer gets the corresponding bit of the value when the first
byte of the field lies in the buffer. In Scenario B, writing `A = 5` and then
`B = 100` into two zero bytes gives `[0x45, 0x06]`. -/
theorem set_value_writes_exactly_field :
    (∀ (msg : List Nat) (sig : Signal) (v : Int),
      (set_value msg sig v).length = msg.length ∧
      (∀ (b j : Nat), j < 8 → (∀ k, k < sig.size → bitPos sig k ≠ ((b : Int), j)) →
        bitAt (set_value msg sig v) b j = bitAt msg b j) ∧
      (validBytes msg → ∀ (b j : Nat), (∀ k, k < sig.size → bitPos sig k ≠ ((b : Int), j)) →
        bitAt (set_value msg sig v) b j = bitAt msg b j) ∧
      (∀ (k b j : Nat), k < sig.size → bitPos sig k = ((b : Int), j) → b < msg.length →
        sig.lsb / 8 < msg.length → bitAt (set_value msg sig v) b j = bitOf v k)) ∧
    set_value (set_value [0, 0] sigA 5) sigB 100 = [0x45, 0x06] ∧
    (pack examplePacker 2 [⟨"A", 5⟩, ⟨"B", 100⟩]).1 = .ok [0x45, 0x06] := by
  refine ⟨?_, by decide, by decide!⟩
  intro msg sig v
  refine ⟨length_set_value msg sig v, ?_, ?_, ?_⟩
  · intro b j hj h
    exact bitAt_set_value_frame msg sig v b j hj h
  · intro hv b j h
    by_cases hj : j < 8
    · exact bitAt_set_value_frame msg sig v b j hj h
    · rw [bitAt_high _ (validBytes_set_value _ _ _ hv) b j (by omega),
        bitAt_high _ hv b j (by omega)]
  · intro k b j hk hpos hb h0
    exact bitAt_set_value_field msg sig v k b j hk hpos hb h0

/-- C19. Last write wins: on a buffer of `uint8_t` bytes, writing `v1` and then
`v2` into the same field gives the buffer of writing `v2` alone, for every
signal; so `set_value` is idempotent, and an in-bounds field reads
`v2 mod 2^size` whatever the buffer held before. -/
theorem last_write_wins (msg : List Nat) (sig : Signal) (v1 v2 : Int) (hv : validBytes msg) :
    set_value (set_value msg sig v1) sig v2 = set_value msg sig v2 ∧
    set_value (set_value msg sig v2) sig v2 = set_value msg sig v2 ∧
    (inBounds sig msg.length →
      readField (set_value (set_value msg sig v1) sig v2) sig = (v2 % 2 ^ sig.size).toNat ∧
      readField (set_value msg sig v2) sig = (v2 % 2 ^ sig.size).toNat) := by
  have key : ∀ (u w : Int), set_value (set_value msg sig u) sig w = set_value msg sig w := by
    intro u w
    by_cases h0 : sig.lsb / 8 < msg.length
    · apply buffer_ext
      · simp only [length_set_value]
      · intro b j hb
        simp only [length_set_value] at hb
        by_cases hj : j < 8
        · by_cases hin : ∃ k, k < sig.size ∧ bitPos sig k = ((b : Int), j)
          · obtain ⟨k, hk, hpos⟩ := hin
            rw [bitAt_set_value_field _ sig w k b j hk hpos (by rw [length_set_value]; exact hb)
                (by rw [length_set_value]; exact h0),
              bitAt_set_value_field _ sig w k b j hk hpos hb h0]
          · have hn : ∀ k, k < sig.size → bitPos sig k ≠ ((b : Int), j) :=
              fun k hk heq => hin ⟨k, hk, heq⟩
            rw [bitAt_set_value_frame _ sig w b j hj hn, bitAt_set_value_frame _ sig u b j hj hn,
              bitAt_set_value_frame _ sig w b j hj hn]
        · have hv1 := validBytes_set_value msg sig u hv
          rw [bitAt_high _ (validBytes_set_value _ sig w hv1) b j (by omega),
            bitAt_high _ (validBytes_set_value _ sig w hv) b j (by omega)]
    · rw [set_value_of_start_outside msg sig u (by omega)]
  refine ⟨key v1 v2, key v2 v2, ?_⟩
  intro hb
  rw [key v1 v2]
  exact ⟨readField_set_value msg sig v2 hb, readField_set_value msg sig v2 hb⟩

/-- Instance of C19: the reverse-order signal `R` written twice into a buffer
with all bits set. -/
theorem last_write_wins_witness :
    set_value (set_value [255, 255, 255, 255] sigR 0x55) sigR 0x2A =
      set_value [255, 255, 255, 255] sigR 0x2A ∧
    set_value (set_value [255, 255, 255, 255] sigR 0x2A) sigR 0x2A =
      set_value [255, 255, 255, 255] sigR 0x2A ∧
    (inBounds sigR ([255, 255, 255, 255] : List Nat).length →
      readField (set_value (set_value [255, 255, 255, 255] sigR 0x55) sigR 0x2A) sigR =
        ((0x2A : Int) % 2 ^ sigR.size).toNat ∧
      readField (set_value [255, 255, 255, 255] sigR 0x2A) sigR =
        ((0x2A : Int) % 2 ^ sigR.size).toNat) :=
  last_write_wins [255, 255, 255, 255] sigR 0x55 0x2A (by decide)

/-! ## Chunks and byte indices of `set_value` -/

theorem indices_loop_in_range (sig : Signal) :
    ∀ (fuel len : Nat) (i : Int) (bits : Nat) (x : Int),
      x ∈ set_value_indices_loop sig fuel len i bits → 0 ≤ x ∧ x < (len : Int) := by
  intro fuel
  induction fuel with
  | zero => intro len i bits x hx; simp [set_value_indices_loop] at hx
  | succ f ih =>
    intro len i bits x hx
    unfold set_value_indices_loop at hx
    by_cases hg : 0 ≤ i ∧ i < (len : Int) ∧ 0 < bits
    · rw [if_pos hg] at hx
      dsimp only at hx
      rcases List.mem_cons.mp hx with rfl | h
      · exact ⟨hg.1, hg.2.1⟩
      · exact ih _ _ _ _ h
    · rw [if_neg hg] at hx; simp at hx

theorem indices_loop_length (sig : Signal) :
    ∀ (fuel len : Nat) (i : Int) (bits : Nat),
      (sig.is_little_endian = true → ((sig.lsb / 8 : Nat) : Int) ≤ i) →
      (sig.is_little_endian = false → i ≤ ((sig.lsb / 8 : Nat) : Int)) →
      (set_value_indices_loop sig fuel len i bits).length ≤
        ((if ((sig.lsb / 8 : Nat) : Int) = i then sig.lsb % 8 else 0) + bits + 7) / 8 := by
  intro fuel
  induction fuel with
  | zero => intro len i bits _ _; simp [set_value_indices_loop]
  | succ f ih =>
    intro len i bits h1 h2
    unfold set_value_indices_loop
    by_cases hg : 0 ≤ i ∧ i < (len : Int) ∧ 0 < bits
    · rw [if_pos hg]
      dsimp only
      rw [List.length_cons]
      have hsh : (if ((sig.lsb / 8 : Nat) : Int) = i then sig.lsb % 8 else 0) ≤ 7 := by
        split_ifs <;> omega
      generalize (if ((sig.lsb / 8 : Nat) : Int) = i then sig.lsb % 8 else 0) = sh at hsh ⊢
      cases hle : sig.is_little_endian with
      | true =>
        have h3 := h1 hle
        simp only [if_true]
        have hih := ih len (i + 1) (bits - min bits (8 - sh)) (fun _ => by omega)
          (fun h => by rw [hle] at h; cases h)
        have hne : ¬ ((sig.lsb / 8 : Nat) : Int) = i + 1 := by omega
        rw [if_neg hne] at hih
        omega
      | false =>
        have h3 := h2 hle
        simp only [Bool.false_eq_true, if_false]
        have hih := ih len (i - 1) (bits - min bits (8 - sh)) (fun h => by rw [hle] at h; cases h)
          (fun _ => by omega)
        have hne : ¬ ((sig.lsb / 8 : Nat) : Int) = i - 1 := by omega
        rw [if_neg hne] at hih
        omega
    · rw [if_neg hg]; simp

theorem loop_untouched (sig : Signal) :
    ∀ (fuel : Nat) (msg : List Nat) (i : Int) (bits : Nat) (v : Int) (b : Nat),
      (b : Int) ∉ set_value_indices_loop sig fuel msg.length i bits →
      (set_value_loop sig fuel msg i bits v).getD b 0 = msg.getD b 0 := by
  intro fuel
  induction fuel with
  | zero => intro msg i bits v b _; rfl
  | succ f ih =>
    intro msg i bits v b hb
    unfold set_value_loop
    unfold set_value_indices_loop at hb
    by_cases hg : 0 ≤ i ∧ i < (msg.length : Int) ∧ 0 < bits
    · rw [if_pos hg] at hb ⊢
      dsimp only at hb ⊢
      rw [List.mem_cons, not_or] at hb
      have hlen : (msg.set i.toNat (write_chunk (msg.getD i.toNat 0) v
          (if ((sig.lsb / 8 : Nat) : Int) = i then sig.lsb % 8 else 0)
          (min bits (8 - if ((sig.lsb / 8 : Nat) : Int) = i then sig.lsb % 8 else 0)))).length =
          msg.length := List.length_set _ _ _
      rw [ih _ _ _ _ b (by rw [hlen]; exact hb.2)]
      by_cases hbl : b < msg.length
      · rw [getD_set _ _ _ _ hbl, if_neg (by omega)]
      · rw [List.getD_eq_default _ _ (by rw [hlen]; omega), List.getD_eq_default _ _ (by omega)]
    · rw [if_neg hg]

theorem loop_fuel_chunks (sig : Signal) :
    ∀ (fuel : Nat) (msg : List Nat) (i : Int) (bits : Nat) (v : Int),
      (sig.is_little_endian = true → ((sig.lsb / 8 : Nat) : Int) ≤ i) →
      (sig.is_little_endian = false → i ≤ ((sig.lsb / 8 : Nat) : Int)) →
      ((if ((sig.lsb / 8 : Nat) : Int) = i then sig.lsb % 8 else 0) + bits + 7) / 8 ≤ fuel →
      set_value_loop sig fuel msg i bits v = set_value_loop sig bits msg i bits v := by
  intro fuel
  induction fuel with
  | zero =>
    intro msg i bits v _ _ hf
    have : bits = 0 := by split_ifs at hf <;> omega
    subst this
    rfl
  | succ f ih =>
    intro msg i bits v h1 h2 hf
    rcases Nat.eq_zero_or_pos bits with h0 | hpos
    · subst h0; rw [set_value_loop_zero_bits, set_value_loop_zero_bits]
    · obtain ⟨c, rfl⟩ : ∃ c, bits = c + 1 := ⟨bits - 1, by omega⟩
      unfold set_value_loop
      by_cases hg : 0 ≤ i ∧ i < (msg.length : Int) ∧ 0 < c + 1
      · rw [if_pos hg, if_pos hg]
        dsimp only
        have hsh : (if ((sig.lsb / 8 : Nat) : Int) = i then sig.lsb % 8 else 0) ≤ 7 := by
          split_ifs <;> omega
        generalize (if ((sig.lsb / 8 : Nat) : Int) = i then sig.lsb % 8 else 0) = sh
          at hsh hf ⊢
        rw [set_value_loop_fuel sig c _ _ _ _ (by omega)]
        cases hle : sig.is_little_endian with
        | true =>
          have h3 := h1 hle
          simp only [if_true]
          have hne : ¬ ((sig.lsb / 8 : Nat) : Int) = i + 1 := by omega
          apply ih _ _ _ _ (fun _ => by omega) (fun h => by rw [hle] at h; cases h)
          rw [if_neg hne]
          omega
        | false =>
          have h3 := h2 hle
          simp only [Bool.false_eq_true, if_false]
          have hne : ¬ ((sig.lsb / 8 : Nat) : Int) = i - 1 := by omega
          apply ih _ _ _ _ (fun h => by rw [hle] at h; cases h) (fun _ => by omega)
          rw [if_neg hne]
          omega
      · rw [if_neg hg, if_neg hg]

/-- C16. Fields that leave the buffer are truncated silently. For every buffer,
signal and value: the loop of `set_value` runs at most
`ceil((lsb % 8 + size) / 8)` chunks, and that many iterations of fuel give the
result; every byte index it accesses lies in `[0, length)`; bytes it does not
access, and bits outside the field, keep their value; a bit position of the
field in a byte of the buffer is written as for an in-bounds field when the
first byte of the field lies in the buffer; and the buffer is unchanged when
`lsb / 8` is not below the length. -/
theorem out_of_bounds_truncated (msg : List Nat) (sig : Signal) (v : Int) :
    (set_value msg sig v).length = msg.length ∧
    (set_value_indices msg.length sig).length ≤ (sig.lsb % 8 + sig.size + 7) / 8 ∧
    (∀ (fuel : Nat) (w : Int), (sig.lsb % 8 + sig.size + 7) / 8 ≤ fuel →
      set_value_loop sig fuel msg ((sig.lsb / 8 : Nat) : Int) sig.size w =
        set_value_loop sig sig.size msg ((sig.lsb / 8 : Nat) : Int) sig.size w) ∧
    (∀ x, x ∈ set_value_indices msg.length sig → 0 ≤ x ∧ x < (msg.length : Int)) ∧
    (∀ (b : Nat), (b : Int) ∉ set_value_indices msg.length sig →
      (set_value msg sig v).getD b 0 = msg.getD b 0) ∧
    (∀ (k b j : Nat), k < sig.size → bitPos sig k = ((b : Int), j) → b < msg.length →
      sig.lsb / 8 < msg.length → bitAt (set_value msg sig v) b j = bitOf v k) ∧
    (∀ (b j : Nat), j < 8 → (∀ k, k < sig.size → bitPos sig k ≠ ((b : Int), j)) →
      bitAt (set_value msg sig v) b j = bitAt msg b j) ∧
    (msg.length ≤ sig.lsb / 8 → set_value msg sig v = msg) := by
  refine ⟨length_set_value msg sig v, ?_, ?_, ?_, ?_, ?_, ?_, ?_⟩
  · have h := indices_loop_length sig sig.size msg.length ((sig.lsb / 8 : Nat) : Int) sig.size
        (fun _ => le_refl _) (fun _ => le_refl _)
    rw [if_pos rfl] at h
    exact h
  · intro fuel w hf
    apply loop_fuel_chunks sig fuel msg _ sig.size w (fun _ => le_refl _) (fun _ => le_refl _)
    rw [if_pos rfl]
    exact hf
  · intro x hx
    exact indices_loop_in_range sig _ _ _ _ x hx
  · intro b hb
    unfold set_value
    exact loop_untouched sig _ msg _ _ _ b hb
  · intro k b j hk hpos hb h0
    exact bitAt_set_value_field msg sig v k b j hk hpos hb h0
  · intro b j hj h
    exact bitAt_set_value_frame msg sig v b j hj h
  · exact set_value_of_start_outside msg sig v

/-- Instances of C16. The 12-bit signal `B` on a 1-byte buffer runs past the end:
one chunk at byte 0 takes the low 4 bits of the value. The reverse-order signal
`LOW` runs below byte 0: one chunk at byte 0. The signal `R` starts in byte 3: on
a 3-byte buffer nothing is written, on a 4-byte buffer bytes 3 and 2 are. -/
theorem out_of_bounds_truncated_witness :
    set_value [0] sigB 0xABC = [0xC0] ∧ set_value_indices 1 sigB = [0] ∧
    set_value [0, 0] sigLow 0xABC = [0xC0, 0] ∧ set_value_indices 2 sigLow = [0] ∧
    set_value [0, 0, 0] sigR 0x7F = [0, 0, 0] ∧ set_value_indices 3 sigR = [] ∧
    set_value [0, 0, 0, 0] sigR 0x7F = [0, 0, 15, 224] ∧ set_value_indices 4 sigR = [3, 2] ∧
    (set_value_indices 1 sigB).length ≤ (sigB.lsb % 8 + sigB.size + 7) / 8 :=
  ⟨by decide, by decide, by decide, by decide, by decide, by decide, by decide, by decide,
    (out_of_bounds_truncated [0] sigB 0xABC).2.1⟩

/-! ## Failed calls -/

theorem pack_values_fails_at (p : CANPacker) (address : Nat) (bad : SignalPackValue)
    (post : List SignalPackValue) (hbad : p.signal_lookup (address, bad.name) = none) :
    ∀ (pre : List SignalPackValue) (ret : List Nat) (ctr : Nat → Option Nat),
      (∀ sv, sv ∈ pre → p.signal_lookup (address, sv.name) ≠ none ∧ sv.name ≠ "COUNTER") →
      pack_values p address (pre ++ bad :: post) ret false ctr =
        (.error (.undefined_signal bad.name), ctr) := by
  intro pre
  induction pre with
  | nil =>
    intro ret ctr _
    rw [List.nil_append]
    unfold pack_values
    rw [hbad]
  | cons sv rest ih =>
    intro ret ctr h
    obtain ⟨h1, h2⟩ := h sv (List.mem_cons_self _ _)
    obtain ⟨sig, hs⟩ := Option.ne_none_iff_exists'.mp h1
    rw [List.cons_append, pack_values_cons p address sv _ sig ret false ctr hs]
    have hb : (sv.name == "COUNTER") = false := by rw [beq_eq_false_iff_ne]; exact h2
    simp only [hb, Bool.or_self, Bool.false_eq_true, if_false]
    exact ih _ _ (fun x hx => h x (List.mem_cons_of_mem _ hx))

/-- C18 fails as stated: on the example message `pack(16, [COUNTER = 2, BOGUS = 0])`
fails with the unknown-signal error, the stored counter of address 16 was absent
before the call and is 2 after it. -/
theorem failed_pack_counterexample :
    examplePacker.signal_lookup (16, "BOGUS") = none ∧
    (pack examplePacker 16 [⟨"COUNTER", 2⟩, ⟨"BOGUS", 0⟩]).1 =
      .error (.undefined_signal "BOGUS") ∧
    examplePacker.counters 16 = none ∧
    (pack examplePacker 16 [⟨"COUNTER", 2⟩, ⟨"BOGUS", 0⟩]).2.counters 16 = some 2 :=
  ⟨by rfl, by decide!, by rfl, by decide!⟩

/-- C18 (amended). A `pack` that fails on an unknown address returns the packer
as it was, and a `pack` that fails on an unknown signal name leaves the counter
map as it was when no entry before the first unknown name is named COUNTER. -/
theorem failed_pack_counters (p : CANPacker) (address : Nat) (values : List SignalPackValue)
    (e : PackError) (hfail : (pack p address values).1 = .error e) :
    (p.message_lookup address = none → (pack p address values).2 = p) ∧
    (∀ pre bad post, values = pre ++ bad :: post →
      (∀ sv, sv ∈ pre → p.signal_lookup (address, sv.name) ≠ none ∧ sv.name ≠ "COUNTER") →
      p.signal_lookup (address, bad.name) = none →
      (pack p address values).2.counters = p.counters) := by
  constructor
  · intro hm
    rw [pack_of_unknown_address p address values hm]
  · intro pre bad post hv hpre hbad
    cases hm : p.message_lookup address with
    | none => rw [pack_of_unknown_address p address values hm]
    | some m =>
      subst hv
      have h := pack_values_fails_at p address bad post hbad pre (List.replicate m.size 0)
        p.counters hpre
      rw [pack_of_pre_error _ _ _ _ _ (pack_pre_of_error p address _ m _ _ hm h)]

/-- Instance of C18 (amended): the unknown name comes before the COUNTER entry,
and the counter map after the failed call is the map before it. -/
theorem failed_pack_counters_witness :
    (pack examplePacker 16 [⟨"X", 1 / 4⟩, ⟨"BOGUS", 0⟩, ⟨"COUNTER", 2⟩]).1 =
      .error (.undefined_signal "BOGUS") ∧
    (pack examplePacker 16 [⟨"X", 1 / 4⟩, ⟨"BOGUS", 0⟩, ⟨"COUNTER", 2⟩]).2.counters =
      examplePacker.counters :=
  ⟨by decide!,
    (failed_pack_counters examplePacker 16 [⟨"X", 1 / 4⟩, ⟨"BOGUS", 0⟩, ⟨"COUNTER", 2⟩]
      (.undefined_signal "BOGUS") (by decide!)).2 [⟨"X", 1 / 4⟩] ⟨"BOGUS", 0⟩ [⟨"COUNTER", 2⟩]
      rfl
      (fun sv hsv => by
        simp only [List.mem_singleton] at hsv
        subst hsv
        exact ⟨by
          have h0 : examplePacker.signal_lookup (16, "X") = some sigX := by rfl
          rw [h0]; simp, by decide⟩)
      (by rfl)⟩

end Packer
